import Mathlib

/-!
Verification of the SudoCube puzzle engine (generator + validator).

The definitions below are a shallow embedding of the TypeScript sources:
  * `src/core/validator/index.ts` (class `SudokuValidator`)
  * the generator module (class `SudokuGenerator`, function `generateSudoku`).

Grids (`number[][]` in the source) are embedded as total functions
`Nat → Nat → Nat`; only the cells `(r, c)` with `r, c < cfg.size` are ever
read or written by the embedded operations, mirroring the index ranges of
the source loops.  In-place mutation of a grid cell is embedded as the
functional update `setCell`.  `Math.random()`-driven choices are embedded
as an oracle stream `f : Nat → Nat` together with a position counter `k`
that is threaded through the computation: the JS expression
`Math.floor(Math.random() * m)` at the `k`-th draw becomes `f k % m`
(every value in `[0, m)` is reachable, and every run of the JS code
corresponds to some oracle).  The floating point products
`totalCells * 0.4` / `* 0.55` / `* 0.7` and `cellsPerBox * 0.7` / `* 0.5`
/ `* 0.3` are embedded as exact rational arithmetic (`* 40 / 100` etc.);
for every grid size mentioned by the claims the two agree.
-/

namespace SudoCube

/-- Difficulty levels, from `src/types/game.ts`. -/
inductive Difficulty where
  | easy
  | medium
  | hard
deriving DecidableEq, Repr

/-- `SudokuConfig` from `src/types/game.ts`: edge length, sub-region rows,
sub-region columns, difficulty. -/
structure SudokuConfig where
  size : Nat
  subRows : Nat
  subCols : Nat
  difficulty : Difficulty
deriving DecidableEq, Repr

/-- A grid (`number[][]` in the source), as a total function on coordinates.
Cell value `0` means empty. -/
abbrev Grid := Nat → Nat → Nat

/-- A preset mask (`boolean[][]` in the source). -/
abbrev Mask := Nat → Nat → Bool

/-- Functional update of one grid cell: embeds `board[r][c] = v`. -/
def setCell (b : Grid) (r c v : Nat) : Grid :=
  fun r' c' => if r' = r ∧ c' = c then v else b r' c'

/-- Functional update of one mask cell: embeds `preset[r][c] = v`. -/
def setMask (m : Mask) (r c : Nat) (v : Bool) : Mask :=
  fun r' c' => if r' = r ∧ c' = c then v else m r' c'

/-- The all-zero grid `Array(size).fill(0).map(() => Array(size).fill(0))`. -/
def zeroGrid : Grid := fun _ _ => 0

/-- The all-`true` mask `Array(size).fill(0).map(() => Array(size).fill(true))`. -/
def allTrueMask : Mask := fun _ _ => true

/-- Row-by-row copy `board.map(row => [...row])`. -/
def copyGrid (b : Grid) : Grid := fun r c => b r c

@[simp] theorem setCell_same (b : Grid) (r c v : Nat) : setCell b r c v r c = v := by
  simp [setCell]

theorem setCell_ne (b : Grid) (r c v r' c' : Nat) (h : ¬(r' = r ∧ c' = c)) :
    setCell b r c v r' c' = b r' c' := by
  simp [setCell, h]

/-- Overwriting a cell twice keeps only the second write. -/
theorem setCell_setCell (b : Grid) (r c v w : Nat) :
    setCell (setCell b r c v) r c w = setCell b r c w := by
  funext r' c'
  by_cases h : r' = r ∧ c' = c <;> simp [setCell, h]

/-- Writing a cell's current value back is a no-op. -/
theorem setCell_self (b : Grid) (r c : Nat) : setCell b r c (b r c) = b := by
  funext r' c'
  by_cases h : r' = r ∧ c' = c
  · simp [setCell, h.1, h.2]
  · simp [setCell, h]

theorem setMask_ne (m : Mask) (r c : Nat) (v : Bool) (r' c' : Nat)
    (h : ¬(r' = r ∧ c' = c)) : setMask m r c v r' c' = m r' c' := by
  simp [setMask, h]

@[simp] theorem setMask_same (m : Mask) (r c : Nat) (v : Bool) :
    setMask m r c v r c = v := by
  simp [setMask]

theorem setMask_setMask (m : Mask) (r c : Nat) (v w : Bool) :
    setMask (setMask m r c v) r c w = setMask m r c w := by
  funext r' c'
  by_cases h : r' = r ∧ c' = c <;> simp [setMask, h]

theorem setMask_self (m : Mask) (r c : Nat) : setMask m r c (m r c) = m := by
  funext r' c'
  by_cases h : r' = r ∧ c' = c
  · simp [setMask, h.1, h.2]
  · simp [setMask, h]

/-! ## Validator (`src/core/validator/index.ts`) -/

/-- Conflict tag: the `type` field of a conflict entry. -/
inductive ConflictType where
  | row
  | column
  | box
deriving DecidableEq, Repr

/-- One entry of `ValidationResult.conflicts`. -/
structure Conflict where
  row : Nat
  col : Nat
  value : Nat
  type : ConflictType
deriving DecidableEq, Repr

/-- `ValidationResult` from `src/types/game.ts`: the `conflicts` field is
`undefined` (here `none`) when the list is empty. -/
structure ValidationResult where
  isValid : Bool
  conflicts : Option (List Conflict)
deriving DecidableEq, Repr

/-- One seen-set scan of a unit (a row, a column, or a sub-region).
`cell j` is the coordinate pair visited at step `j`; the scan handles the
`m` steps `i, i+1, ..., i+m-1`, carrying the set `seen` of values already
seen in this unit (a JS `Set<number>`, embedded as a list).  A nonzero
value already in `seen` pushes a conflict tagged `kind` at the current
cell; otherwise the value is added to `seen`. -/
def scanUnit (kind : ConflictType) (b : Grid) (cell : Nat → Nat × Nat) :
    Nat → Nat → List Nat → List Conflict
  | _, 0, _ => []
  | i, m + 1, seen =>
    let rc := cell i
    let v := b rc.1 rc.2
    if v ≠ 0 then
      if v ∈ seen then
        { row := rc.1, col := rc.2, value := v, type := kind } ::
          scanUnit kind b cell (i + 1) m seen
      else scanUnit kind b cell (i + 1) m (v :: seen)
    else scanUnit kind b cell (i + 1) m seen

/-- The row scan of `validate`: rows in order, cells of a row in column
order, one seen-set per row. -/
def rowConflicts (cfg : SudokuConfig) (b : Grid) : List Conflict :=
  (List.range cfg.size).flatMap fun row =>
    scanUnit ConflictType.row b (fun col => (row, col)) 0 cfg.size []

/-- The column scan of `validate`: columns in order, cells of a column in
row order, one seen-set per column. -/
def colConflicts (cfg : SudokuConfig) (b : Grid) : List Conflict :=
  (List.range cfg.size).flatMap fun col =>
    scanUnit ConflictType.column b (fun row => (row, col)) 0 cfg.size []

/-- Top-left corners of the sub-regions, in the traversal order of the
source (`for boxRow += subRows` outer, `for boxCol += subCols` inner).
The loop `for (x = 0; x < size; x += step)` runs `⌈size / step⌉` times. -/
def boxCorners (cfg : SudokuConfig) : List (Nat × Nat) :=
  ((List.range ((cfg.size + cfg.subRows - 1) / cfg.subRows)).map (· * cfg.subRows)).flatMap
    fun boxRow =>
      ((List.range ((cfg.size + cfg.subCols - 1) / cfg.subCols)).map (· * cfg.subCols)).map
        fun boxCol => (boxRow, boxCol)

/-- Cell visited at step `t` of the scan of the sub-region with corner
`(boxRow, boxCol)`: the source iterates `i < subRows` outer and
`j < subCols` inner, i.e. step `t = i * subCols + j`. -/
def boxCell (cfg : SudokuConfig) (boxRow boxCol t : Nat) : Nat × Nat :=
  (boxRow + t / cfg.subCols, boxCol + t % cfg.subCols)

/-- The sub-region scan of `validate`: one seen-set per sub-region. -/
def boxConflicts (cfg : SudokuConfig) (b : Grid) : List Conflict :=
  (boxCorners cfg).flatMap fun rc =>
    scanUnit ConflictType.box b (boxCell cfg rc.1 rc.2) 0 (cfg.subRows * cfg.subCols) []

/-- The full conflict list built by `SudokuValidator.validate`: the row
scan, then the column scan, then the sub-region scan. -/
def validateConflicts (cfg : SudokuConfig) (b : Grid) : List Conflict :=
  rowConflicts cfg b ++ colConflicts cfg b ++ boxConflicts cfg b

/-- `SudokuValidator.validate`: `isValid` iff the conflict list is empty;
the `conflicts` field is `undefined` (`none`) when the list is empty. -/
def validate (cfg : SudokuConfig) (b : Grid) : ValidationResult :=
  let conflicts := validateConflicts cfg b
  { isValid := conflicts.length == 0
    conflicts := if conflicts.length > 0 then some conflicts else none }

/-- `SudokuValidator.isComplete`: every cell nonzero, and `validate` holds. -/
def isComplete (cfg : SudokuConfig) (b : Grid) : Bool :=
  ((List.range cfg.size).all fun row =>
    (List.range cfg.size).all fun col => b row col != 0) &&
  (validate cfg b).isValid

/-- `SudokuValidator.isSolutionValid` (the spec's `isConsistentWithSolution`):
every nonzero cell of `board` agrees with `solution`. -/
def isSolutionValid (cfg : SudokuConfig) (b sol : Grid) : Bool :=
  (List.range cfg.size).all fun row =>
    (List.range cfg.size).all fun col =>
      !(b row col != 0 && b row col != sol row col)

/-! ## Generator (class `SudokuGenerator` and function `generateSudoku`) -/

/-- `SudokuGenerator.isValid`: placing `num` at `(row, col)` conflicts with
no already-placed value in the row, the column, or the sub-region with
corner `(row - row % subRows, col - col % subCols)`. -/
def isValid (cfg : SudokuConfig) (b : Grid) (row col num : Nat) : Bool :=
  ((List.range cfg.size).all fun x => b row x != num) &&
  ((List.range cfg.size).all fun x => b x col != num) &&
  (let startRow := row - row % cfg.subRows
   let startCol := col - col % cfg.subCols
   (List.range cfg.subRows).all fun i =>
     (List.range cfg.subCols).all fun j => b (i + startRow) (j + startCol) != num)

/-- Swap of two list entries, embedding `[a[i], a[j]] = [a[j], a[i]]`. -/
def swapEntries [Inhabited α] (l : List α) (i j : Nat) : List α :=
  (l.set i (l.getD j default)).set j (l.getD i default)

/-- `SudokuGenerator.shuffleArray` (Fisher–Yates), run on the index range
`i, i-1, ..., 1`; the draw at step `i` is `f k % (i + 1)`, embedding
`Math.floor(Math.random() * (i + 1))`.  Returns the shuffled list and the
advanced oracle counter. -/
def shuffleAux [Inhabited α] (f : Nat → Nat) : Nat → List α → Nat → List α × Nat
  | 0, l, k => (l, k)
  | i + 1, l, k => shuffleAux f i (swapEntries l (i + 1) (f k % (i + 2))) (k + 1)

/-- `shuffleArray(array)`: the loop `for (i = array.length - 1; i > 0; i--)`. -/
def shuffleArray [Inhabited α] (f : Nat → Nat) (l : List α) (k : Nat) : List α × Nat :=
  shuffleAux f (l.length - 1) l k

/-- All cell positions in row-major order; embeds both the nested loops of
`solveSudoku` / `countSolutions` (scan for an empty cell) and the
`positions` array built by `generatePuzzle`. -/
def allPositions (cfg : SudokuConfig) : List (Nat × Nat) :=
  (List.range cfg.size).flatMap fun row =>
    (List.range cfg.size).map fun col => (row, col)

/-- The row-major scan for the first empty cell (`board[row][col] === 0`). -/
def firstEmpty (cfg : SudokuConfig) (b : Grid) : Option (Nat × Nat) :=
  (allPositions cfg).find? fun rc => b rc.1 rc.2 == 0

/-- Number of empty cells of the grid; this is the recursion-depth bound of
the backtracking searches (each recursive call fills one more cell). -/
def numZeros (cfg : SudokuConfig) (b : Grid) : Nat :=
  (allPositions cfg).countP fun rc => b rc.1 rc.2 == 0

/-- The candidate values `1..size`, embedding
`Array.from({length: size}, (_, i) => i + 1)`. -/
def oneTo (n : Nat) : List Nat :=
  (List.range n).map (· + 1)

/-- The candidate loop of `solveSudoku`: try each shuffled candidate at the
current empty cell `(r, c)`; on a legal candidate, place it and run the
recursive search `rec` (the recursion one empty cell deeper); a failed
recursive search undoes the placement (the continuation runs on the
unchanged grid `b`) and keeps the oracle counter the failed search
consumed. -/
def tryCandidates (cfg : SudokuConfig)
    (rec : Grid → Nat → Bool × Grid × Nat) (r c : Nat) :
    List Nat → Grid → Nat → Bool × Grid × Nat
  | [], b, k => (false, b, k)
  | num :: rest, b, k =>
    if isValid cfg b r c num then
      let res := rec (setCell b r c num) k
      if res.1 then res
      else tryCandidates cfg rec r c rest b res.2.2
    else tryCandidates cfg rec r c rest b k

/-- `SudokuGenerator.solveSudoku`, with an explicit recursion-depth fuel:
find the first empty cell; if none, succeed; otherwise shuffle the
candidates `1..size` and try them in order.  Each recursive call is made
on a grid with one fewer empty cell, so fuel `numZeros + 1` makes the fuel
bound unreachable. -/
def solveFuel (cfg : SudokuConfig) (f : Nat → Nat) :
    Nat → Grid → Nat → Bool × Grid × Nat
  | 0, b, k => (false, b, k)
  | fuel + 1, b, k =>
    match firstEmpty cfg b with
    | none => (true, b, k)
    | some rc =>
      let nums := shuffleArray f (oneTo cfg.size) k
      tryCandidates cfg (solveFuel cfg f fuel) rc.1 rc.2 nums.1 b nums.2

/-- `solveSudoku(board)` as called by the generator. -/
def solveSudoku (cfg : SudokuConfig) (f : Nat → Nat) (b : Grid) (k : Nat) :
    Bool × Grid × Nat :=
  solveFuel cfg f (numZeros cfg b + 1) b k

/-- The candidate loop of `countSolutions`: values `1..size` in order (no
shuffling); each legal value is placed, counted into by the recursive
search `rec`, then un-placed (`board[row][col] = 0`).  The pair returned
is (solution counter, grid buffer) — the buffer models the in-place
mutated `testBoard`. -/
def countCandidates (cfg : SudokuConfig)
    (rec : Grid → Nat → Nat × Grid) (r c : Nat) :
    List Nat → Grid → Nat → Nat × Grid
  | [], b, cnt => (cnt, b)
  | num :: rest, b, cnt =>
    if isValid cfg b r c num then
      let res := rec (setCell b r c num) cnt
      countCandidates cfg rec r c rest (setCell res.2 r c 0) res.1
    else countCandidates cfg rec r c rest b cnt

/-- The inner `countSolutions` closure of `hasUniqueSolution`, with fuel:
an early return when the counter exceeds 1, otherwise a scan for the
first empty cell; a fully filled board bumps the counter. -/
def countSolutions (cfg : SudokuConfig) : Nat → Grid → Nat → Nat × Grid
  | 0, b, cnt => (cnt, b)
  | fuel + 1, b, cnt =>
    if cnt > 1 then (cnt, b)
    else
      match firstEmpty cfg b with
      | none => (cnt + 1, b)
      | some rc =>
        countCandidates cfg (countSolutions cfg fuel) rc.1 rc.2 (oneTo cfg.size) b cnt

/-- `SudokuGenerator.hasUniqueSolution`: run the counting search on an
independent copy of the board and test `solutionCount === 1`. -/
def hasUniqueSolution (cfg : SudokuConfig) (b : Grid) : Bool :=
  let testBoard := copyGrid b
  (countSolutions cfg (numZeros cfg testBoard + 1) testBoard 0).1 == 1

/-- The removal quota of `generatePuzzle`:
`Math.floor(totalCells * ratio)` with ratio 0.40 / 0.55 / 0.70. -/
def cellsToRemove (cfg : SudokuConfig) : Nat :=
  let totalCells := cfg.size * cfg.size
  match cfg.difficulty with
  | Difficulty.easy => totalCells * 40 / 100
  | Difficulty.medium => totalCells * 55 / 100
  | Difficulty.hard => totalCells * 70 / 100

/-- The carving loop of `generatePuzzle` over the shuffled positions.
Each iteration first checks the quota (`if (removed >= cellsToRemove)
break`), then tentatively zeroes the cell and marks it non-preset; on the
small-grid non-easy path a failed uniqueness check restores the original
value and the preset flag.  `hasUniqueSolution` reads only its own copy,
so the loop consumes no oracle values. -/
def carveLoop (cfg : SudokuConfig) (quota : Nat) :
    List (Nat × Nat) → Grid → Mask → Nat → Grid × Mask
  | [], puzzle, preset, _ => (puzzle, preset)
  | rc :: rest, puzzle, preset, removed =>
    if removed ≥ quota then (puzzle, preset)
    else
      let originalValue := puzzle rc.1 rc.2
      let puzzle' := setCell puzzle rc.1 rc.2 0
      let preset' := setMask preset rc.1 rc.2 false
      if cfg.size ≤ 9 ∧ cfg.difficulty ≠ Difficulty.easy then
        if hasUniqueSolution cfg puzzle' then
          carveLoop cfg quota rest puzzle' preset' (removed + 1)
        else
          carveLoop cfg quota rest (setCell puzzle' rc.1 rc.2 originalValue)
            (setMask preset' rc.1 rc.2 true) removed
      else carveLoop cfg quota rest puzzle' preset' (removed + 1)

/-- `GeneratedPuzzle`: the record returned by the generator. -/
structure GeneratedPuzzle where
  puzzle : Grid
  solution : Grid
  preset : Mask

/-- `SudokuGenerator.generatePuzzle`: solve an all-zero grid (the returned
flag is discarded by the source), copy it, shuffle the positions, and run
the carving loop with the difficulty quota. -/
def generatePuzzle (cfg : SudokuConfig) (f : Nat → Nat) (k : Nat) : GeneratedPuzzle :=
  let solved := solveSudoku cfg f zeroGrid k
  let solution := solved.2.1
  let puzzle := copyGrid solution
  let preset := allTrueMask
  let shuffled := shuffleArray f (allPositions cfg) solved.2.2
  let carved := carveLoop cfg (cellsToRemove cfg) shuffled.1 puzzle preset 0
  { puzzle := carved.1, solution := solution, preset := carved.2 }

/-- `keepPerBox` of `generateQuickPuzzle`:
`Math.ceil(cellsPerBox * ratio)` with ratio 0.70 / 0.50 / 0.30. -/
def keepPerBox (cfg : SudokuConfig) : Nat :=
  let cellsPerBox := cfg.subRows * cfg.subCols
  match cfg.difficulty with
  | Difficulty.easy => (cellsPerBox * 70 + 99) / 100
  | Difficulty.medium => (cellsPerBox * 50 + 99) / 100
  | Difficulty.hard => (cellsPerBox * 30 + 99) / 100

/-- The positions of the sub-region with corner `(boxRow, boxCol)`, in the
order collected by `generateQuickPuzzle` (`i < subRows` outer, `j <
subCols` inner). -/
def boxPositions (cfg : SudokuConfig) (boxRow boxCol : Nat) : List (Nat × Nat) :=
  (List.range cfg.subRows).flatMap fun i =>
    (List.range cfg.subCols).map fun j => (boxRow + i, boxCol + j)

/-- Zero out a list of cells and clear their preset flags. -/
def zeroCells : List (Nat × Nat) → Grid × Mask → Grid × Mask
  | [], pm => pm
  | rc :: rest, pm =>
    zeroCells rest (setCell pm.1 rc.1 rc.2 0, setMask pm.2 rc.1 rc.2 false)

/-- One sub-region step of `generateQuickPuzzle`: shuffle the region's
positions and zero all of them past the first `keepPerBox`. -/
def quickBoxStep (cfg : SudokuConfig) (f : Nat → Nat)
    (st : Grid × Mask × Nat) (rc : Nat × Nat) : Grid × Mask × Nat :=
  let shuffled := shuffleArray f (boxPositions cfg rc.1 rc.2) st.2.2
  let pm := zeroCells (shuffled.1.drop (keepPerBox cfg)) (st.1, st.2.1)
  (pm.1, pm.2, shuffled.2)

/-- `SudokuGenerator.generateQuickPuzzle`: solve an all-zero grid, then for
each sub-region keep `keepPerBox` randomly chosen cells and zero the rest. -/
def generateQuickPuzzle (cfg : SudokuConfig) (f : Nat → Nat) (k : Nat) : GeneratedPuzzle :=
  let solved := solveSudoku cfg f zeroGrid k
  let solution := solved.2.1
  let st := (boxCorners cfg).foldl (quickBoxStep cfg f)
    (copyGrid solution, allTrueMask, solved.2.2)
  { puzzle := st.1, solution := solution, preset := st.2.1 }

/-- `generateSudoku(config)`: quick generation above size 9, otherwise the
unique-solution-aware generation. -/
def generateSudoku (cfg : SudokuConfig) (f : Nat → Nat) (k : Nat) : GeneratedPuzzle :=
  if cfg.size > 9 then generateQuickPuzzle cfg f k
  else generatePuzzle cfg f k

/-! ## Position-list and counter infrastructure -/

theorem mem_allPositions (cfg : SudokuConfig) (rc : Nat × Nat) :
    rc ∈ allPositions cfg ↔ rc.1 < cfg.size ∧ rc.2 < cfg.size := by
  cases rc with
  | mk r c =>
    simp [allPositions, List.mem_flatMap, List.mem_map, List.mem_range]

theorem allPositions_nodup (cfg : SudokuConfig) : (allPositions cfg).Nodup := by
  apply List.nodup_flatMap.2
  constructor
  · intro r _
    exact List.Nodup.map (fun a b h => (Prod.mk.injEq _ _ _ _ ▸ h).2) (List.nodup_range _)
  · apply List.Pairwise.imp ?_ (List.nodup_range (n := cfg.size))
    intro a b hab
    simp only [List.disjoint_left]
    intro rc hrc hrc'
    simp only [List.mem_map, List.mem_range] at hrc hrc'
    obtain ⟨c, _, rfl⟩ := hrc
    obtain ⟨c', _, h⟩ := hrc'
    exact hab (congrArg Prod.fst h).symm

theorem allPositions_length (cfg : SudokuConfig) :
    (allPositions cfg).length = cfg.size * cfg.size := by
  simp [allPositions, List.length_flatMap, Function.comp_def]

theorem firstEmpty_eq_none_iff (cfg : SudokuConfig) (b : Grid) :
    firstEmpty cfg b = none ↔ ∀ r c, r < cfg.size → c < cfg.size → b r c ≠ 0 := by
  simp only [firstEmpty, List.find?_eq_none, beq_iff_eq]
  constructor
  · intro h r c hr hc
    exact h (r, c) ((mem_allPositions cfg (r, c)).2 ⟨hr, hc⟩)
  · intro h rc hrc
    obtain ⟨h1, h2⟩ := (mem_allPositions cfg rc).1 hrc
    exact h rc.1 rc.2 h1 h2

theorem firstEmpty_some (cfg : SudokuConfig) (b : Grid) (rc : Nat × Nat)
    (h : firstEmpty cfg b = some rc) :
    rc.1 < cfg.size ∧ rc.2 < cfg.size ∧ b rc.1 rc.2 = 0 := by
  have hmem := List.mem_of_find?_eq_some h
  have hp := List.find?_some h
  obtain ⟨h1, h2⟩ := (mem_allPositions cfg rc).1 hmem
  exact ⟨h1, h2, by simpa using hp⟩

theorem countP_update_of_nodup {α : Type} (x : α) :
    ∀ (l : List α), l.Nodup → x ∈ l →
    ∀ (q q' : α → Bool), (∀ y ∈ l, y ≠ x → q y = q' y) → q x = true → q' x = false →
    l.countP q = l.countP q' + 1 := by
  intro l
  induction l with
  | nil => intro _ hx; cases hx
  | cons a t ih =>
    intro hnd hx q q' hagree hq hq'
    rcases List.mem_cons.1 hx with rfl | hxt
    · have ht : t.countP q = t.countP q' := by
        apply List.countP_congr
        intro y hy
        rw [hagree y (List.mem_cons_of_mem _ hy)
          (fun hyx => (List.nodup_cons.1 hnd).1 (hyx ▸ hy))]
      simp [List.countP_cons, hq, hq', ht]
    · have hax : a ≠ x := fun h => (List.nodup_cons.1 hnd).1 (h ▸ hxt)
      have ha : q a = q' a := hagree a (List.mem_cons_self a t) hax
      have := ih (List.nodup_cons.1 hnd).2 hxt q q'
        (fun y hy => hagree y (List.mem_cons_of_mem _ hy)) hq hq'
      simp only [List.countP_cons, ha, this]
      omega

theorem countP_le_update_of_nodup {α : Type} (x : α) :
    ∀ (l : List α), l.Nodup →
    ∀ (q q' : α → Bool), (∀ y ∈ l, y ≠ x → q y = q' y) →
    l.countP q' ≤ l.countP q + 1 := by
  intro l
  induction l with
  | nil => simp
  | cons a t ih =>
    intro hnd q q' hagree
    by_cases hax : a = x
    · have ht : t.countP q = t.countP q' := by
        apply List.countP_congr
        intro y hy
        rw [hagree y (List.mem_cons_of_mem _ hy)
          (fun hyx => (List.nodup_cons.1 hnd).1 ((hax.trans hyx.symm) ▸ hy))]
      simp only [List.countP_cons, ht]
      cases hq : q' a <;> cases hq2 : q a <;> simp <;> omega
    · have ha : q a = q' a := hagree a (List.mem_cons_self a t) hax
      have := ih (List.nodup_cons.1 hnd).2 q q'
        (fun y hy => hagree y (List.mem_cons_of_mem _ hy))
      simp only [List.countP_cons, ha]
      omega

theorem swapEntries_perm {α : Type} [Inhabited α] [DecidableEq α] (l : List α)
    (i j : Nat) (hi : i < l.length) (hj : j < l.length) :
    (swapEntries l i j).Perm l := by
  rw [List.perm_iff_count]
  intro a
  have hgi : l.getD i default = l[i] := List.getD_eq_getElem l default hi
  have hgj : l.getD j default = l[j] := List.getD_eq_getElem l default hj
  have hj2 : j < (l.set i l[j]).length := by simpa using hj
  simp only [swapEntries, hgi, hgj]
  rw [List.count_set _ _ _ _ hj2, List.count_set _ _ _ _ hi]
  simp only [List.getElem_set, ite_self, beq_iff_eq]
  by_cases hia : l[i] = a
  · have hm : 0 < List.count a l := List.count_pos_iff.2 (hia ▸ List.getElem_mem hi)
    by_cases hja : l[j] = a
    · simp only [if_pos hia, if_pos hja]
      omega
    · simp only [if_pos hia, if_neg hja]
      omega
  · by_cases hja : l[j] = a
    · simp only [if_neg hia, if_pos hja]
      omega
    · simp only [if_neg hia, if_neg hja]
      omega

theorem shuffleAux_perm {α : Type} [Inhabited α] [DecidableEq α] (f : Nat → Nat) :
    ∀ (i : Nat) (l : List α) (k : Nat), i < l.length →
    ((shuffleAux f i l k).1).Perm l := by
  intro i
  induction i with
  | zero => intro l k _; exact List.Perm.refl l
  | succ i ih =>
    intro l k hi
    have hji : f k % (i + 2) < l.length :=
      lt_of_lt_of_le (Nat.mod_lt _ (by omega)) (by omega)
    have hperm := swapEntries_perm l (i + 1) (f k % (i + 2)) hi hji
    have hlen : (swapEntries l (i + 1) (f k % (i + 2))).length = l.length :=
      hperm.length_eq
    exact ((ih _ (k + 1) (by omega)).trans hperm)

theorem shuffleArray_perm {α : Type} [Inhabited α] [DecidableEq α] (f : Nat → Nat)
    (l : List α) (k : Nat) : ((shuffleArray f l k).1).Perm l := by
  cases hl : l with
  | nil => simp [shuffleArray, shuffleAux]
  | cons a t =>
    apply shuffleAux_perm
    simp

theorem oneTo_mem (n v : Nat) : v ∈ oneTo n ↔ 1 ≤ v ∧ v ≤ n := by
  simp only [oneTo, List.mem_map, List.mem_range]
  constructor
  · rintro ⟨a, ha, rfl⟩; omega
  · intro ⟨h1, h2⟩; exact ⟨v - 1, by omega, by omega⟩

theorem oneTo_nodup (n : Nat) : (oneTo n).Nodup :=
  List.Nodup.map (fun a b h => by omega) (List.nodup_range _)

/-! ## Declarative placement-rule layer

The notions below are the specification-side reading of the placement
rules: what it means for a grid to be rule-consistent, and what the
completions of a partial grid are.  They are used to state and prove the
claims about the searches. -/

/-- The Shape invariant of the spec: positive sub-region dimensions whose
product is the edge length. -/
def wellFormed (cfg : SudokuConfig) : Prop :=
  0 < cfg.subRows ∧ 0 < cfg.subCols ∧ cfg.subRows * cfg.subCols = cfg.size

instance (cfg : SudokuConfig) : Decidable (wellFormed cfg) := by
  unfold wellFormed; infer_instance

/-- Two cells lie in a common unit: same row, same column, or same
sub-region (sub-region corners computed exactly as in the source:
`row - row % subRows`, `col - col % subCols`). -/
def sameUnit (cfg : SudokuConfig) (r1 c1 r2 c2 : Nat) : Prop :=
  r1 = r2 ∨ c1 = c2 ∨
    (r1 - r1 % cfg.subRows = r2 - r2 % cfg.subRows ∧
     c1 - c1 % cfg.subCols = c2 - c2 % cfg.subCols)

/-- No two distinct in-range cells of a common unit hold the same nonzero
value. -/
def Consistent (cfg : SudokuConfig) (b : Grid) : Prop :=
  ∀ r1 c1 r2 c2, r1 < cfg.size → c1 < cfg.size → r2 < cfg.size → c2 < cfg.size →
    (r1, c1) ≠ (r2, c2) → sameUnit cfg r1 c1 r2 c2 → b r1 c1 ≠ 0 →
    b r1 c1 ≠ b r2 c2

/-- Every in-range cell value is at most `size`. -/
def ValsLe (cfg : SudokuConfig) (b : Grid) : Prop :=
  ∀ r c, r < cfg.size → c < cfg.size → b r c ≤ cfg.size

/-- Every in-range cell is filled. -/
def CompleteG (cfg : SudokuConfig) (b : Grid) : Prop :=
  ∀ r c, r < cfg.size → c < cfg.size → b r c ≠ 0

/-- `s` agrees with every filled in-range cell of `b`. -/
def ExtendsG (cfg : SudokuConfig) (b s : Grid) : Prop :=
  ∀ r c, r < cfg.size → c < cfg.size → b r c ≠ 0 → s r c = b r c

/-- `s` is a completion of `b` consistent with the placement rules: fully
filled with values `1..size`, rule-consistent, and extending `b`. -/
def IsCompletion (cfg : SudokuConfig) (b s : Grid) : Prop :=
  (∀ r c, r < cfg.size → c < cfg.size → 1 ≤ s r c ∧ s r c ≤ cfg.size) ∧
  Consistent cfg s ∧ ExtendsG cfg b s

/-- Two grids agree on all in-range cells. -/
def EqOnGrid (cfg : SudokuConfig) (s s' : Grid) : Prop :=
  ∀ r c, r < cfg.size → c < cfg.size → s r c = s' r c

/-- `b` has exactly one completion consistent with the placement rules. -/
def ExactlyOneCompletion (cfg : SudokuConfig) (b : Grid) : Prop :=
  ∃ s, IsCompletion cfg b s ∧ ∀ s', IsCompletion cfg b s' → EqOnGrid cfg s s'

theorem isValid_iff (cfg : SudokuConfig) (b : Grid) (r c num : Nat) :
    isValid cfg b r c num = true ↔
    (∀ x, x < cfg.size → b r x ≠ num) ∧
    (∀ x, x < cfg.size → b x c ≠ num) ∧
    (∀ i, i < cfg.subRows → ∀ j, j < cfg.subCols →
      b (i + (r - r % cfg.subRows)) (j + (c - c % cfg.subCols)) ≠ num) := by
  simp [isValid, List.all_eq_true, List.mem_range, and_assoc]

/-- The sub-region corner is a multiple of the sub-region height. -/
theorem corner_eq (sR r : Nat) : r - r % sR = sR * (r / sR) := by
  have := Nat.mod_add_div r sR
  omega

/-- Any in-range cell of the sub-region of `(r, c)` has the form scanned by
`isValid`: row `i + (r - r % subRows)` with `i < subRows`. -/
theorem sub_corner_lt (sR sC r : Nat) (h : 0 < sR) (h2 : 0 < sC)
    (hr : r < sR * sC) (i : Nat) (hi : i < sR) : i + (r - r % sR) < sR * sC := by
  rw [corner_eq]
  have hdiv : r / sR < sC :=
    Nat.div_lt_iff_lt_mul h |>.2 (by rw [Nat.mul_comm sC sR]; exact hr)
  have h1 : sR * (r / sR) ≤ sR * (sC - 1) := Nat.mul_le_mul_left _ (by omega)
  have h2 : sR * (sC - 1) = sR * sC - sR := by
    cases sC with
    | zero => omega
    | succ n => simp [Nat.mul_succ]
  have h3 : sR * 1 ≤ sR * sC := Nat.mul_le_mul_left _ (by omega)
  omega

/-- Rows of one sub-region share the corner term. -/
theorem corner_add (sR S i : Nat) (hS : sR ∣ S) (hi : i < sR) :
    (i + S) - (i + S) % sR = S := by
  obtain ⟨k, rfl⟩ := hS
  have : (i + sR * k) % sR = i % sR := Nat.add_mul_mod_self_left i sR k
  have : i % sR = i := Nat.mod_eq_of_lt hi
  omega

/-- A completion value is always a legal placement at an empty cell. -/
theorem isValid_of_completion (cfg : SudokuConfig) (b s : Grid) (r c : Nat)
    (hwf : wellFormed cfg) (hs : IsCompletion cfg b s)
    (hr : r < cfg.size) (hc : c < cfg.size) (h0 : b r c = 0) :
    isValid cfg b r c (s r c) = true := by
  obtain ⟨hR, hC, hmul⟩ := hwf
  obtain ⟨hvals, hcons, hext⟩ := hs
  rw [isValid_iff]
  refine ⟨?_, ?_, ?_⟩
  · intro x hx hbx
    have hxc : x ≠ c := fun h => by rw [h, h0] at hbx; exact absurd hbx.symm (by
      have := (hvals r c hr hc).1; omega)
    have hsx : s r x = b r x := hext r x hr hx (by rw [hbx]; exact fun h => hxc (by
      have := (hvals r c hr hc).1; omega))
    have := hcons r x r c hr hx hr hc (by simp [hxc]) (Or.inl rfl)
      (by rw [hsx, hbx]; have := (hvals r c hr hc).1; omega)
    rw [hsx, hbx] at this
    exact this rfl
  · intro x hx hbx
    have hxr : x ≠ r := fun h => by rw [h, h0] at hbx; exact absurd hbx.symm (by
      have := (hvals r c hr hc).1; omega)
    have hsx : s x c = b x c := hext x c hx hc (by rw [hbx]; exact fun h => hxr (by
      have := (hvals r c hr hc).1; omega))
    have := hcons x c r c hx hc hr hc (by simp [hxr]) (Or.inr (Or.inl rfl))
      (by rw [hsx, hbx]; have := (hvals r c hr hc).1; omega)
    rw [hsx, hbx] at this
    exact this rfl
  · intro i hi j hj hbx
    set r2 := i + (r - r % cfg.subRows) with hr2
    set c2 := j + (c - c % cfg.subCols) with hc2
    have hr2lt : r2 < cfg.size := by
      rw [hr2, ← hmul]
      exact sub_corner_lt _ _ r hR hC (by rw [hmul]; exact hr) i hi
    have hmul' : cfg.subCols * cfg.subRows = cfg.size := by
      rw [Nat.mul_comm]; exact hmul
    have hc2lt : c2 < cfg.size := by
      rw [hc2, ← hmul']
      exact sub_corner_lt _ _ c hC hR (by rw [hmul']; exact hc) j hj
    have hne : (r2, c2) ≠ (r, c) := by
      intro h
      have h1 : r2 = r := (Prod.mk.injEq _ _ _ _ ▸ h).1
      have h2 : c2 = c := (Prod.mk.injEq _ _ _ _ ▸ h).2
      rw [h1, h2, h0] at hbx
      have := (hvals r c hr hc).1
      omega
    have hbox : sameUnit cfg r2 c2 r c := by
      right; right
      constructor
      · rw [hr2, corner_add cfg.subRows _ i ⟨r / cfg.subRows, corner_eq _ r⟩ hi]
      · rw [hc2, corner_add cfg.subCols _ j ⟨c / cfg.subCols, corner_eq _ c⟩ hj]
    have hnz : b r2 c2 ≠ 0 := by rw [hbx]; have := (hvals r c hr hc).1; omega
    have hs2 : s r2 c2 = b r2 c2 := hext r2 c2 hr2lt hc2lt hnz
    have := hcons r2 c2 r c hr2lt hc2lt hr hc hne hbox (by rw [hs2, hbx]; omega)
    rw [hs2, hbx] at this
    exact this rfl

/-- A grid with a completion is itself rule-consistent. -/
theorem consistent_of_completion (cfg : SudokuConfig) (b s : Grid)
    (hs : IsCompletion cfg b s) : Consistent cfg b := by
  obtain ⟨hvals, hcons, hext⟩ := hs
  intro r1 c1 r2 c2 hr1 hc1 hr2 hc2 hne hunit hnz
  by_cases h2 : b r2 c2 = 0
  · rw [h2]; exact hnz
  · have e1 : s r1 c1 = b r1 c1 := hext r1 c1 hr1 hc1 hnz
    have e2 : s r2 c2 = b r2 c2 := hext r2 c2 hr2 hc2 h2
    have := hcons r1 c1 r2 c2 hr1 hc1 hr2 hc2 hne hunit (by rw [e1]; exact hnz)
    rw [e1, e2] at this
    exact this

/-- A grid with a completion has values at most `size`. -/
theorem valsLe_of_completion (cfg : SudokuConfig) (b s : Grid)
    (hs : IsCompletion cfg b s) : ValsLe cfg b := by
  obtain ⟨hvals, hcons, hext⟩ := hs
  intro r c hr hc
  by_cases h : b r c = 0
  · omega
  · rw [← hext r c hr hc h]; exact (hvals r c hr hc).2

/-- Placing a completion's own value keeps it a completion. -/
theorem completion_setCell (cfg : SudokuConfig) (b s : Grid) (r c v : Nat)
    (hs : IsCompletion cfg b s) (hv : s r c = v) :
    IsCompletion cfg (setCell b r c v) s := by
  obtain ⟨hvals, hcons, hext⟩ := hs
  refine ⟨hvals, hcons, ?_⟩
  intro r' c' hr' hc' hnz
  by_cases h : r' = r ∧ c' = c
  · rw [h.1, h.2] at hnz ⊢
    rw [setCell_same] at hnz ⊢
    exact hv
  · rw [setCell_ne _ _ _ _ _ _ h] at hnz ⊢
    exact hext r' c' hr' hc' hnz

/-- A completion of a one-cell extension of `b` also completes `b`. -/
theorem completion_unset (cfg : SudokuConfig) (b s : Grid) (r c v : Nat)
    (h0 : b r c = 0) (hs : IsCompletion cfg (setCell b r c v) s) :
    IsCompletion cfg b s := by
  obtain ⟨hvals, hcons, hext⟩ := hs
  refine ⟨hvals, hcons, ?_⟩
  intro r' c' hr' hc' hnz
  by_cases h : r' = r ∧ c' = c
  · rw [h.1, h.2, h0] at hnz; exact absurd rfl hnz
  · have := hext r' c' hr' hc'
    rw [setCell_ne _ _ _ _ _ _ h] at this
    exact this hnz

/-- A completion of an extension determines the cell value placed. -/
theorem completion_setCell_val (cfg : SudokuConfig) (b s : Grid) (r c v : Nat)
    (hr : r < cfg.size) (hc : c < cfg.size) (hv : v ≠ 0)
    (hs : IsCompletion cfg (setCell b r c v) s) : s r c = v := by
  have := hs.2.2 r c hr hc
  rw [setCell_same] at this
  exact this hv

/-- Zeroing a cell preserves rule-consistency. -/
theorem consistent_setCell_zero (cfg : SudokuConfig) (b : Grid) (r c : Nat)
    (h : Consistent cfg b) : Consistent cfg (setCell b r c 0) := by
  intro r1 c1 r2 c2 hr1 hc1 hr2 hc2 hne hunit hnz
  by_cases h1 : r1 = r ∧ c1 = c
  · rw [h1.1, h1.2, setCell_same] at hnz; exact absurd rfl hnz
  · rw [setCell_ne _ _ _ _ _ _ h1] at hnz ⊢
    by_cases h2 : r2 = r ∧ c2 = c
    · rw [h2.1, h2.2, setCell_same]
      exact hnz
    · rw [setCell_ne _ _ _ _ _ _ h2]
      exact h r1 c1 r2 c2 hr1 hc1 hr2 hc2 hne hunit hnz

/-- Zeroing a cell preserves the value bound. -/
theorem valsLe_setCell (cfg : SudokuConfig) (b : Grid) (r c v : Nat)
    (h : ValsLe cfg b) (hv : v ≤ cfg.size) : ValsLe cfg (setCell b r c v) := by
  intro r' c' hr' hc'
  by_cases hcase : r' = r ∧ c' = c
  · rw [hcase.1, hcase.2, setCell_same]; exact hv
  · rw [setCell_ne _ _ _ _ _ _ hcase]; exact h r' c' hr' hc'

/-- A complete consistent grid with values `1..size` completes itself. -/
theorem completion_self (cfg : SudokuConfig) (b : Grid) (hcomp : CompleteG cfg b)
    (hcons : Consistent cfg b) (hle : ValsLe cfg b) : IsCompletion cfg b b := by
  refine ⟨?_, hcons, fun r c _ _ _ => rfl⟩
  intro r c hr hc
  have h1 := hcomp r c hr hc
  have h2 := hle r c hr hc
  omega

/-- Completions of a complete grid coincide with it on all in-range cells. -/
theorem completion_of_complete_eq (cfg : SudokuConfig) (b s : Grid)
    (hcomp : CompleteG cfg b) (hs : IsCompletion cfg b s) : EqOnGrid cfg s b :=
  fun r c hr hc => hs.2.2 r c hr hc (hcomp r c hr hc)

/-- A complete consistent within-range grid has exactly one completion. -/
theorem exactlyOne_of_complete (cfg : SudokuConfig) (b : Grid)
    (hcomp : CompleteG cfg b) (hcons : Consistent cfg b) (hle : ValsLe cfg b) :
    ExactlyOneCompletion cfg b := by
  refine ⟨b, completion_self cfg b hcomp hcons hle, ?_⟩
  intro s' hs' r c hr hc
  exact (completion_of_complete_eq cfg b s' hcomp hs' r c hr hc).symm

/-- Legal placements preserve rule-consistency. -/
theorem consistent_setCell_isValid (cfg : SudokuConfig) (b : Grid) (r c num : Nat)
    (hwf : wellFormed cfg) (hcons : Consistent cfg b)
    (hr : r < cfg.size) (hc : c < cfg.size)
    (hval : isValid cfg b r c num = true) :
    Consistent cfg (setCell b r c num) := by
  obtain ⟨hR, hC, hmul⟩ := hwf
  rw [isValid_iff] at hval
  obtain ⟨hrow, hcol, hbox⟩ := hval
  have hkey : ∀ r2 c2, r2 < cfg.size → c2 < cfg.size →
      sameUnit cfg r c r2 c2 → ¬(r2 = r ∧ c2 = c) → b r2 c2 ≠ num := by
    intro r2 c2 hr2 hc2 hunit hne
    rcases hunit with h | h | h
    · exact fun hcon => hrow c2 hc2 (h ▸ hcon)
    · exact fun hcon => hcol r2 hr2 (by rw [← h] at hcon; exact hcon)
    · obtain ⟨hbr, hbc⟩ := h
      have hi : r2 % cfg.subRows < cfg.subRows := Nat.mod_lt _ hR
      have hj : c2 % cfg.subCols < cfg.subCols := Nat.mod_lt _ hC
      have e1 : r2 % cfg.subRows + (r - r % cfg.subRows) = r2 := by
        rw [hbr]
        have := Nat.mod_le r2 cfg.subRows
        omega
      have e2 : c2 % cfg.subCols + (c - c % cfg.subCols) = c2 := by
        rw [hbc]
        have := Nat.mod_le c2 cfg.subCols
        omega
      intro hcon
      apply hbox (r2 % cfg.subRows) hi (c2 % cfg.subCols) hj
      rw [e1, e2]
      exact hcon
  intro r1 c1 r2 c2 hr1 hc1 hr2 hc2 hne hunit hnz
  by_cases h1 : r1 = r ∧ c1 = c
  · have h2 : ¬(r2 = r ∧ c2 = c) := by
      intro h2
      exact hne (by rw [h1.1, h1.2, h2.1, h2.2])
    rw [h1.1, h1.2, setCell_same] at hnz ⊢
    rw [setCell_ne _ _ _ _ _ _ h2]
    have hunit' : sameUnit cfg r c r2 c2 := by
      rw [h1.1, h1.2] at hunit; exact hunit
    exact fun hcon => hkey r2 c2 hr2 hc2 hunit' h2 hcon.symm
  · rw [setCell_ne _ _ _ _ _ _ h1] at hnz ⊢
    by_cases h2 : r2 = r ∧ c2 = c
    · rw [h2.1, h2.2, setCell_same]
      have hunit' : sameUnit cfg r c r1 c1 := by
        rw [h2.1, h2.2] at hunit
        rcases hunit with h | h | h
        · exact Or.inl h.symm
        · exact Or.inr (Or.inl h.symm)
        · exact Or.inr (Or.inr ⟨h.1.symm, h.2.symm⟩)
      exact hkey r1 c1 hr1 hc1 hunit' h1
    · rw [setCell_ne _ _ _ _ _ _ h2]
      exact hcons r1 c1 r2 c2 hr1 hc1 hr2 hc2 hne hunit hnz

/-! ## Existence of a complete grid for every well-formed shape -/

/-- Row key of the cyclic Latin-square construction. -/
def cyclicKey (cfg : SudokuConfig) (r : Nat) : Nat :=
  cfg.subCols * (r % cfg.subRows) + r / cfg.subRows

/-- The standard cyclic solved grid: cell `(r, c)` holds
`(key r + c) mod size + 1`.  Witnesses that every well-formed shape admits
a complete rule-consistent grid. -/
def cyclicGrid (cfg : SudokuConfig) : Grid :=
  fun r c => (cyclicKey cfg r + c) % cfg.size + 1

/-- Base-`sC` decompositions are unique. -/
theorem baseDecomp_inj (sC a1 d1 a2 d2 : Nat) (h1 : d1 < sC) (h2 : d2 < sC)
    (h : sC * a1 + d1 = sC * a2 + d2) : a1 = a2 ∧ d1 = d2 := by
  have hC : 0 < sC := by omega
  have m1 : (sC * a1 + d1) % sC = d1 := by
    rw [Nat.mul_add_mod]
    exact Nat.mod_eq_of_lt h1
  have m2 : (sC * a2 + d2) % sC = d2 := by
    rw [Nat.mul_add_mod]
    exact Nat.mod_eq_of_lt h2
  have d1d2 : d1 = d2 := by rw [← m1, ← m2, h]
  have q1 : (sC * a1 + d1) / sC = a1 := by
    rw [Nat.mul_add_div hC, Nat.div_eq_of_lt h1, Nat.add_zero]
  have q2 : (sC * a2 + d2) / sC = a2 := by
    rw [Nat.mul_add_div hC, Nat.div_eq_of_lt h2, Nat.add_zero]
  have a1a2 : a1 = a2 := by rw [← q1, ← q2, h]
  exact ⟨a1a2, d1d2⟩

/-- Mixed-radix bound: `sB * x + y < sA * sB` when `x < sA` and `y < sB`. -/
theorem mixedRadix_lt (sA sB x y : Nat) (hx : x < sA) (hy : y < sB) :
    sB * x + y < sA * sB := by
  have h1 : sB * (x + 1) = sB * x + sB := by ring
  have h2 : sB * (x + 1) ≤ sB * sA := Nat.mul_le_mul_left _ (by omega)
  have h3 : sB * sA = sA * sB := Nat.mul_comm _ _
  omega

theorem cyclicKey_lt (cfg : SudokuConfig) (hwf : wellFormed cfg) (r : Nat)
    (hr : r < cfg.size) : cyclicKey cfg r < cfg.size := by
  obtain ⟨hR, hC, hmul⟩ := hwf
  have hmod : r % cfg.subRows < cfg.subRows := Nat.mod_lt _ hR
  have hdiv : r / cfg.subRows < cfg.subCols := by
    apply Nat.div_lt_iff_lt_mul hR |>.2
    rw [Nat.mul_comm]
    omega
  have := mixedRadix_lt cfg.subRows cfg.subCols (r % cfg.subRows) (r / cfg.subRows)
    hmod hdiv
  unfold cyclicKey
  omega

theorem cyclicKey_inj (cfg : SudokuConfig) (hwf : wellFormed cfg) (r1 r2 : Nat)
    (h1 : r1 < cfg.size) (h2 : r2 < cfg.size)
    (h : cyclicKey cfg r1 = cyclicKey cfg r2) : r1 = r2 := by
  obtain ⟨hR, hC, hmul⟩ := hwf
  have hd1 : r1 / cfg.subRows < cfg.subCols := by
    apply Nat.div_lt_iff_lt_mul hR |>.2
    rw [Nat.mul_comm]
    omega
  have hd2 : r2 / cfg.subRows < cfg.subCols := by
    apply Nat.div_lt_iff_lt_mul hR |>.2
    rw [Nat.mul_comm]
    omega
  have := baseDecomp_inj cfg.subCols (r1 % cfg.subRows) (r1 / cfg.subRows)
    (r2 % cfg.subRows) (r2 / cfg.subRows) hd1 hd2 h
  have e1 := Nat.mod_add_div r1 cfg.subRows
  have e2 := Nat.mod_add_div r2 cfg.subRows
  have hm : r1 % cfg.subRows = r2 % cfg.subRows := this.1
  have hd : r1 / cfg.subRows = r2 / cfg.subRows := this.2
  have : cfg.subRows * (r1 / cfg.subRows) = cfg.subRows * (r2 / cfg.subRows) := by
    rw [hd]
  omega

/-- Mod-`n` sums with equal residues and addends below `n` force equal
second addends (cancellation of a common first addend). -/
theorem mod_add_cancel (n K a b : Nat) (ha : a < n) (hb : b < n)
    (h : (K + a) % n = (K + b) % n) : a = b := by
  have h1 : (K + a) % n = (K % n + a % n) % n := by
    rw [Nat.add_mod]
  have hmodeq : Nat.ModEq n (K + a) (K + b) := h
  have := Nat.ModEq.add_left_cancel (Nat.ModEq.refl K) hmodeq
  have : a % n = b % n := this
  rw [Nat.mod_eq_of_lt ha, Nat.mod_eq_of_lt hb] at this
  exact this

theorem cyclicGrid_completion (cfg : SudokuConfig) (hwf : wellFormed cfg) :
    IsCompletion cfg zeroGrid (cyclicGrid cfg) := by
  have hsize : 0 < cfg.size := by
    obtain ⟨hR, hC, hmul⟩ := hwf
    have := Nat.mul_pos hR hC
    omega
  refine ⟨?_, ?_, ?_⟩
  · intro r c hr hc
    unfold cyclicGrid
    have := Nat.mod_lt (cyclicKey cfg r + c) hsize
    omega
  · obtain ⟨hR, hC, hmul⟩ := hwf
    intro r1 c1 r2 c2 hr1 hc1 hr2 hc2 hne hunit hnz hcontra
    unfold cyclicGrid at hcontra
    have hmm : (cyclicKey cfg r1 + c1) % cfg.size = (cyclicKey cfg r2 + c2) % cfg.size := by
      omega
    rcases hunit with h | h | h
    · subst h
      have := mod_add_cancel cfg.size (cyclicKey cfg r1) c1 c2 hc1 hc2 hmm
      exact hne (by rw [this])
    · subst h
      have k1 := cyclicKey_lt cfg ⟨hR, hC, hmul⟩ r1 hr1
      have k2 := cyclicKey_lt cfg ⟨hR, hC, hmul⟩ r2 hr2
      have hsum : (c1 + cyclicKey cfg r1) % cfg.size = (c1 + cyclicKey cfg r2) % cfg.size := by
        rw [Nat.add_comm c1 (cyclicKey cfg r1), Nat.add_comm c1 (cyclicKey cfg r2)]
        exact hmm
      have := mod_add_cancel cfg.size c1 (cyclicKey cfg r1) (cyclicKey cfg r2) k1 k2 hsum
      have := cyclicKey_inj cfg ⟨hR, hC, hmul⟩ r1 r2 hr1 hr2 this
      exact hne (by rw [this])
    · obtain ⟨hbr, hbc⟩ := h
      have hml1 := Nat.mod_le r1 cfg.subRows
      have hml2 := Nat.mod_le c1 cfg.subCols
      have hq : r1 / cfg.subRows = r2 / cfg.subRows := by
        have e1 := corner_eq cfg.subRows r1
        have e2 := corner_eq cfg.subRows r2
        rw [e1, e2] at hbr
        exact Nat.eq_of_mul_eq_mul_left hR hbr
      have hcc : c1 - c1 % cfg.subCols = c2 - c2 % cfg.subCols := hbc
      have key1 : cyclicKey cfg r1 + c1 =
          (r1 / cfg.subRows + (c1 - c1 % cfg.subCols)) +
          (cfg.subCols * (r1 % cfg.subRows) + c1 % cfg.subCols) := by
        unfold cyclicKey
        omega
      have key2 : cyclicKey cfg r2 + c2 =
          (r2 / cfg.subRows + (c2 - c2 % cfg.subCols)) +
          (cfg.subCols * (r2 % cfg.subRows) + c2 % cfg.subCols) := by
        unfold cyclicKey
        have := Nat.mod_le c2 cfg.subCols
        omega
      have hbase : r1 / cfg.subRows + (c1 - c1 % cfg.subCols) =
          r2 / cfg.subRows + (c2 - c2 % cfg.subCols) := by
        rw [hq, hcc]
      have hin1 : cfg.subCols * (r1 % cfg.subRows) + c1 % cfg.subCols < cfg.size := by
        have := mixedRadix_lt cfg.subRows cfg.subCols (r1 % cfg.subRows)
          (c1 % cfg.subCols) (Nat.mod_lt _ hR) (Nat.mod_lt _ hC)
        omega
      have hin2 : cfg.subCols * (r2 % cfg.subRows) + c2 % cfg.subCols < cfg.size := by
        have := mixedRadix_lt cfg.subRows cfg.subCols (r2 % cfg.subRows)
          (c2 % cfg.subCols) (Nat.mod_lt _ hR) (Nat.mod_lt _ hC)
        omega
      rw [key1, key2] at hmm
      have hsum : ((r1 / cfg.subRows + (c1 - c1 % cfg.subCols)) +
          (cfg.subCols * (r1 % cfg.subRows) + c1 % cfg.subCols)) % cfg.size =
          ((r1 / cfg.subRows + (c1 - c1 % cfg.subCols)) +
          (cfg.subCols * (r2 % cfg.subRows) + c2 % cfg.subCols)) % cfg.size := by
        rw [hmm, hbase]
      have heq := mod_add_cancel cfg.size _ _ _ hin1 hin2 hsum
      have hm2c : c1 % cfg.subCols < cfg.subCols := Nat.mod_lt _ hC
      have hm2c' : c2 % cfg.subCols < cfg.subCols := Nat.mod_lt _ hC
      have := baseDecomp_inj cfg.subCols (r1 % cfg.subRows) (c1 % cfg.subCols)
        (r2 % cfg.subRows) (c2 % cfg.subCols) hm2c hm2c' heq
      have hr12 : r1 = r2 := by
        have e1 := Nat.mod_add_div r1 cfg.subRows
        have e2 := Nat.mod_add_div r2 cfg.subRows
        have hrr : cfg.subRows * (r1 / cfg.subRows) = cfg.subRows * (r2 / cfg.subRows) := by
          rw [hq]
        have := this.1
        omega
      have hc12 : c1 = c2 := by
        have hmc1 := Nat.mod_le c1 cfg.subCols
        have hmc2 := Nat.mod_le c2 cfg.subCols
        have := this.2
        omega
      exact hne (by rw [hr12, hc12])
  · intro r c hr hc hnz
    exact absurd rfl hnz

/-! ## Soundness and completeness of the backtracking fill -/

/-- Zeroing status bookkeeping: filling an empty in-range cell removes
exactly one zero. -/
theorem numZeros_setCell (cfg : SudokuConfig) (b : Grid) (r c v : Nat)
    (hr : r < cfg.size) (hc : c < cfg.size) (h0 : b r c = 0) (hv : v ≠ 0) :
    numZeros cfg b = numZeros cfg (setCell b r c v) + 1 := by
  unfold numZeros
  apply countP_update_of_nodup (r, c) _ (allPositions_nodup cfg)
    ((mem_allPositions cfg (r, c)).2 ⟨hr, hc⟩)
  · intro y hy hne
    have : ¬(y.1 = r ∧ y.2 = c) := by
      intro h
      exact hne (Prod.ext h.1 h.2)
    rw [setCell_ne _ _ _ _ _ _ this]
  · simp [h0]
  · simp [setCell_same, hv]

/-- A successful candidate loop used some legal candidate from the list and
returned the result of the recursive search after placing it. -/
theorem tryCandidates_true (cfg : SudokuConfig)
    (rec : Grid → Nat → Bool × Grid × Nat) (r c : Nat) :
    ∀ (l : List Nat) (b : Grid) (k : Nat),
    (tryCandidates cfg rec r c l b k).1 = true →
    ∃ num, num ∈ l ∧ isValid cfg b r c num = true ∧
      ∃ k', rec (setCell b r c num) k' = tryCandidates cfg rec r c l b k := by
  intro l
  induction l with
  | nil => intro b k h; simp [tryCandidates] at h
  | cons num rest ih =>
    intro b k h
    by_cases hv : isValid cfg b r c num = true
    · by_cases hres : (rec (setCell b r c num) k).1 = true
      · refine ⟨num, List.mem_cons_self _ _, hv, k, ?_⟩
        simp [tryCandidates, hv, hres]
      · have hstep : tryCandidates cfg rec r c (num :: rest) b k =
            tryCandidates cfg rec r c rest b (rec (setCell b r c num) k).2.2 := by
          simp [tryCandidates, hv, hres]
        rw [hstep] at h ⊢
        obtain ⟨num', hmem, hval, k', hk'⟩ := ih b _ h
        exact ⟨num', List.mem_cons_of_mem _ hmem, hval, k', hk'⟩
    · have hstep : tryCandidates cfg rec r c (num :: rest) b k =
          tryCandidates cfg rec r c rest b k := by
        simp [tryCandidates, hv]
      rw [hstep] at h ⊢
      obtain ⟨num', hmem, hval, k', hk'⟩ := ih b k h
      exact ⟨num', List.mem_cons_of_mem _ hmem, hval, k', hk'⟩

/-- If some candidate in the list is legal and makes the recursive search
succeed for every oracle position, the candidate loop succeeds. -/
theorem tryCandidates_success (cfg : SudokuConfig)
    (rec : Grid → Nat → Bool × Grid × Nat) (r c : Nat) :
    ∀ (l : List Nat) (b : Grid) (k : Nat),
    (∃ num, num ∈ l ∧ isValid cfg b r c num = true ∧
      ∀ k', (rec (setCell b r c num) k').1 = true) →
    (tryCandidates cfg rec r c l b k).1 = true := by
  intro l
  induction l with
  | nil => rintro b k ⟨num, hmem, _⟩; cases hmem
  | cons num0 rest ih =>
    rintro b k ⟨num, hmem, hval, hsucc⟩
    by_cases hv : isValid cfg b r c num0 = true
    · by_cases hres : (rec (setCell b r c num0) k).1 = true
      · simp [tryCandidates, hv, hres]
      · have hne : num ≠ num0 := by
          intro h
          rw [h] at hsucc
          exact hres (hsucc k)
        have hmem' : num ∈ rest := by
          rcases List.mem_cons.1 hmem with h | h
          · exact absurd h hne
          · exact h
        have hstep : tryCandidates cfg rec r c (num0 :: rest) b k =
            tryCandidates cfg rec r c rest b (rec (setCell b r c num0) k).2.2 := by
          simp [tryCandidates, hv, hres]
        rw [hstep]
        exact ih b _ ⟨num, hmem', hval, hsucc⟩
    · have hne : num ≠ num0 := fun h => hv (h ▸ hval)
      have hmem' : num ∈ rest := by
        rcases List.mem_cons.1 hmem with h | h
        · exact absurd h hne
        · exact h
      have hstep : tryCandidates cfg rec r c (num0 :: rest) b k =
          tryCandidates cfg rec r c rest b k := by
        simp [tryCandidates, hv]
      rw [hstep]
      exact ih b k ⟨num, hmem', hval, hsucc⟩

/-- One-cell extensions preserve the extension relation downward. -/
theorem extendsG_setCell_chain (cfg : SudokuConfig) (b b' : Grid) (r c v : Nat)
    (h0 : b r c = 0) (h : ExtendsG cfg (setCell b r c v) b') : ExtendsG cfg b b' := by
  intro r' c' hr' hc' hnz
  by_cases hcase : r' = r ∧ c' = c
  · rw [hcase.1, hcase.2, h0] at hnz; exact absurd rfl hnz
  · have := h r' c' hr' hc'
    rw [setCell_ne _ _ _ _ _ _ hcase] at this
    exact this hnz

/-- Soundness of the backtracking fill: a successful search returns a
complete, rule-consistent grid with values `1..size` extending the input. -/
theorem solveFuel_sound (cfg : SudokuConfig) (f : Nat → Nat) (hwf : wellFormed cfg) :
    ∀ (fuel : Nat) (b : Grid) (k : Nat), Consistent cfg b → ValsLe cfg b →
    (solveFuel cfg f fuel b k).1 = true →
    (CompleteG cfg (solveFuel cfg f fuel b k).2.1 ∧
     Consistent cfg (solveFuel cfg f fuel b k).2.1 ∧
     ValsLe cfg (solveFuel cfg f fuel b k).2.1 ∧
     ExtendsG cfg b (solveFuel cfg f fuel b k).2.1) := by
  intro fuel
  induction fuel with
  | zero => intro b k _ _ h; simp [solveFuel] at h
  | succ fuel ih =>
    intro b k hcons hle h
    by_cases hfe : firstEmpty cfg b = none
    · have hres : solveFuel cfg f (fuel + 1) b k = (true, b, k) := by
        simp [solveFuel, hfe]
      rw [hres] at h ⊢
      have hcomp : CompleteG cfg b := by
        intro r c hr hc
        exact (firstEmpty_eq_none_iff cfg b).1 hfe r c hr hc
      exact ⟨hcomp, hcons, hle, fun r c _ _ _ => rfl⟩
    · obtain ⟨rc, hrc⟩ := Option.ne_none_iff_exists'.1 hfe
      obtain ⟨hr, hc, h0⟩ := firstEmpty_some cfg b rc hrc
      have hres : solveFuel cfg f (fuel + 1) b k =
          tryCandidates cfg (solveFuel cfg f fuel) rc.1 rc.2
            (shuffleArray f (oneTo cfg.size) k).1 b
            (shuffleArray f (oneTo cfg.size) k).2 := by
        simp [solveFuel, hrc]
      rw [hres] at h ⊢
      obtain ⟨num, hmem, hval, k', hk'⟩ := tryCandidates_true cfg _ rc.1 rc.2 _ b _ h
      have hmem1 : num ∈ oneTo cfg.size :=
        (shuffleArray_perm f (oneTo cfg.size) k).mem_iff.1 hmem
      have hnum : 1 ≤ num ∧ num ≤ cfg.size := (oneTo_mem cfg.size num).1 hmem1
      have hcons' : Consistent cfg (setCell b rc.1 rc.2 num) :=
        consistent_setCell_isValid cfg b rc.1 rc.2 num hwf hcons hr hc hval
      have hle' : ValsLe cfg (setCell b rc.1 rc.2 num) :=
        valsLe_setCell cfg b rc.1 rc.2 num hle hnum.2
      rw [← hk'] at h ⊢
      obtain ⟨hcomp2, hcons2, hle2, hext2⟩ := ih _ k' hcons' hle' h
      exact ⟨hcomp2, hcons2, hle2, extendsG_setCell_chain cfg b _ rc.1 rc.2 num h0 hext2⟩

/-- Completeness of the backtracking fill: with sufficient fuel, a
consistent bounded grid admitting a completion is always solved, for every
random oracle. -/
theorem solveFuel_success (cfg : SudokuConfig) (f : Nat → Nat) (hwf : wellFormed cfg) :
    ∀ (fuel : Nat) (b : Grid), numZeros cfg b < fuel → Consistent cfg b →
    ValsLe cfg b → (∃ s, IsCompletion cfg b s) →
    ∀ k, (solveFuel cfg f fuel b k).1 = true := by
  intro fuel
  induction fuel with
  | zero => intro b h; omega
  | succ fuel ih =>
    intro b hfuel hcons hle hex k
    by_cases hfe : firstEmpty cfg b = none
    · simp [solveFuel, hfe]
    · obtain ⟨rc, hrc⟩ := Option.ne_none_iff_exists'.1 hfe
      obtain ⟨hr, hc, h0⟩ := firstEmpty_some cfg b rc hrc
      obtain ⟨s, hs⟩ := hex
      have hres : solveFuel cfg f (fuel + 1) b k =
          tryCandidates cfg (solveFuel cfg f fuel) rc.1 rc.2
            (shuffleArray f (oneTo cfg.size) k).1 b
            (shuffleArray f (oneTo cfg.size) k).2 := by
        simp [solveFuel, hrc]
      rw [hres]
      apply tryCandidates_success
      refine ⟨s rc.1 rc.2, ?_, ?_, ?_⟩
      · apply (shuffleArray_perm f (oneTo cfg.size) k).mem_iff.2
        exact (oneTo_mem _ _).2 (hs.1 rc.1 rc.2 hr hc)
      · exact isValid_of_completion cfg b s rc.1 rc.2 hwf hs hr hc h0
      · intro k'
        have hv0 : s rc.1 rc.2 ≠ 0 := by
          have := (hs.1 rc.1 rc.2 hr hc).1
          omega
        apply ih
        · have := numZeros_setCell cfg b rc.1 rc.2 (s rc.1 rc.2) hr hc h0 hv0
          omega
        · exact consistent_setCell_isValid cfg b rc.1 rc.2 _ hwf hcons hr hc
            (isValid_of_completion cfg b s rc.1 rc.2 hwf hs hr hc h0)
        · exact valsLe_setCell cfg b rc.1 rc.2 _ hle (hs.1 rc.1 rc.2 hr hc).2
        · exact ⟨s, completion_setCell cfg b s rc.1 rc.2 _ hs rfl⟩

/-- The all-zero grid is consistent, bounded, and admits a completion. -/
theorem zeroGrid_consistent (cfg : SudokuConfig) : Consistent cfg zeroGrid := by
  intro r1 c1 r2 c2 _ _ _ _ _ _ hnz
  exact absurd rfl hnz

theorem zeroGrid_valsLe (cfg : SudokuConfig) : ValsLe cfg zeroGrid := by
  intro r c _ _
  exact Nat.zero_le _

/-- `solveSudoku` on the all-zero grid always succeeds for well-formed
shapes, and returns a complete consistent grid with values `1..size`. -/
theorem solveSudoku_zeroGrid (cfg : SudokuConfig) (f : Nat → Nat) (k : Nat)
    (hwf : wellFormed cfg) :
    (solveSudoku cfg f zeroGrid k).1 = true ∧
    CompleteG cfg (solveSudoku cfg f zeroGrid k).2.1 ∧
    Consistent cfg (solveSudoku cfg f zeroGrid k).2.1 ∧
    ValsLe cfg (solveSudoku cfg f zeroGrid k).2.1 := by
  have hsucc : (solveSudoku cfg f zeroGrid k).1 = true := by
    apply solveFuel_success cfg f hwf _ _ (by omega) (zeroGrid_consistent cfg)
      (zeroGrid_valsLe cfg) ⟨cyclicGrid cfg, cyclicGrid_completion cfg hwf⟩
  have hsound := solveFuel_sound cfg f hwf (numZeros cfg zeroGrid + 1) zeroGrid k
    (zeroGrid_consistent cfg) (zeroGrid_valsLe cfg) hsucc
  exact ⟨hsucc, hsound.1, hsound.2.1, hsound.2.2.1⟩

/-! ## The solution-counting search -/

/-- Zeroing an already-zero cell is a no-op. -/
theorem setCell_zero_self (b : Grid) (r c : Nat) (h0 : b r c = 0) :
    setCell b r c 0 = b := by
  rw [← h0]
  exact setCell_self b r c

/-- The candidate loop of the counting search restores its buffer, provided
the recursive search does. -/
theorem countCandidates_snd (cfg : SudokuConfig) (rec : Grid → Nat → Nat × Grid)
    (r c : Nat) (hrec : ∀ g m, (rec g m).2 = g) :
    ∀ (l : List Nat) (b : Grid) (cnt : Nat), b r c = 0 →
    (countCandidates cfg rec r c l b cnt).2 = b := by
  intro l
  induction l with
  | nil => intro b cnt _; rfl
  | cons num rest ih =>
    intro b cnt h0
    by_cases hv : isValid cfg b r c num = true
    · have hres : (rec (setCell b r c num) cnt).2 = setCell b r c num := hrec _ _
      have hboard : setCell (rec (setCell b r c num) cnt).2 r c 0 = b := by
        rw [hres, setCell_setCell, setCell_zero_self b r c h0]
      have hstep : countCandidates cfg rec r c (num :: rest) b cnt =
          countCandidates cfg rec r c rest b (rec (setCell b r c num) cnt).1 := by
        simp only [countCandidates, if_pos hv, hboard]
      rw [hstep]
      exact ih b _ h0
    · have hstep : countCandidates cfg rec r c (num :: rest) b cnt =
          countCandidates cfg rec r c rest b cnt := by
        simp only [countCandidates, if_neg hv]
      rw [hstep]
      exact ih b cnt h0

/-- The counting search restores its buffer: the board after the call is
the board before it (the place / recurse / un-place discipline). -/
theorem countSolutions_snd (cfg : SudokuConfig) :
    ∀ (fuel : Nat) (b : Grid) (cnt : Nat), (countSolutions cfg fuel b cnt).2 = b := by
  intro fuel
  induction fuel with
  | zero => intro b cnt; rfl
  | succ fuel ih =>
    intro b cnt
    by_cases hcnt : cnt > 1
    · simp [countSolutions, hcnt]
    · cases hfe : firstEmpty cfg b with
      | none => simp [countSolutions, hcnt, hfe]
      | some rc =>
        have h0 : b rc.1 rc.2 = 0 := (firstEmpty_some cfg b rc hfe).2.2
        have hres : countSolutions cfg (fuel + 1) b cnt =
            countCandidates cfg (countSolutions cfg fuel) rc.1 rc.2
              (oneTo cfg.size) b cnt := by
          simp [countSolutions, hcnt, hfe]
        rw [hres]
        exact countCandidates_snd cfg _ rc.1 rc.2 (fun g m => ih g m) _ b cnt h0

/-- The counter component of the candidate loop is a left fold over the
candidate list on the fixed entry board. -/
theorem countCandidates_fold (cfg : SudokuConfig) (fuel : Nat) (r c : Nat) :
    ∀ (l : List Nat) (b : Grid) (cnt : Nat), b r c = 0 →
    (countCandidates cfg (countSolutions cfg fuel) r c l b cnt).1 =
      l.foldl (fun acc num => if isValid cfg b r c num = true then
        (countSolutions cfg fuel (setCell b r c num) acc).1 else acc) cnt := by
  intro l
  induction l with
  | nil => intro b cnt _; rfl
  | cons num rest ih =>
    intro b cnt h0
    by_cases hv : isValid cfg b r c num = true
    · have hres : (countSolutions cfg fuel (setCell b r c num) cnt).2 =
          setCell b r c num := countSolutions_snd cfg fuel _ cnt
      have hboard : setCell (countSolutions cfg fuel (setCell b r c num) cnt).2 r c 0 = b := by
        rw [hres, setCell_setCell, setCell_zero_self b r c h0]
      have hstep : countCandidates cfg (countSolutions cfg fuel) r c (num :: rest) b cnt =
          countCandidates cfg (countSolutions cfg fuel) r c rest b
            (countSolutions cfg fuel (setCell b r c num) cnt).1 := by
        simp only [countCandidates, if_pos hv, hboard]
      rw [hstep, ih b _ h0]
      simp [hv]
    · have hstep : countCandidates cfg (countSolutions cfg fuel) r c (num :: rest) b cnt =
          countCandidates cfg (countSolutions cfg fuel) r c rest b cnt := by
        simp only [countCandidates, if_neg hv]
      rw [hstep, ih b cnt h0]
      simp [hv]

/-- Folds whose steps are the identity on the listed elements do nothing. -/
theorem foldl_id_of_mem {α : Type} (l : List α) (g : Nat → α → Nat)
    (h : ∀ x ∈ l, ∀ acc, g acc x = acc) : ∀ cnt, l.foldl g cnt = cnt := by
  induction l with
  | nil => intro cnt; rfl
  | cons x rest ih =>
    intro cnt
    rw [List.foldl_cons, h x (List.mem_cons_self x rest) cnt]
    exact ih (fun y hy => h y (List.mem_cons_of_mem _ hy)) cnt

/-- Folds with inflationary steps are inflationary. -/
theorem foldl_le {α : Type} (g : Nat → α → Nat) (h : ∀ acc x, acc ≤ g acc x) :
    ∀ (l : List α) (cnt : Nat), cnt ≤ l.foldl g cnt := by
  intro l
  induction l with
  | nil => intro cnt; exact Nat.le_refl cnt
  | cons x rest ih =>
    intro cnt
    exact Nat.le_trans (h cnt x) (ih (g cnt x))

/-- The counter of the counting search never decreases. -/
theorem countSolutions_mono (cfg : SudokuConfig) :
    ∀ (fuel : Nat) (b : Grid) (cnt : Nat), cnt ≤ (countSolutions cfg fuel b cnt).1 := by
  intro fuel
  induction fuel with
  | zero => intro b cnt; exact Nat.le_refl cnt
  | succ fuel ih =>
    intro b cnt
    by_cases hcnt : cnt > 1
    · simp [countSolutions, hcnt]
    · cases hfe : firstEmpty cfg b with
      | none => simp [countSolutions, hcnt, hfe]
      | some rc =>
        have h0 : b rc.1 rc.2 = 0 := (firstEmpty_some cfg b rc hfe).2.2
        have hres : (countSolutions cfg (fuel + 1) b cnt).1 =
            (oneTo cfg.size).foldl (fun acc num => if isValid cfg b rc.1 rc.2 num = true then
              (countSolutions cfg fuel (setCell b rc.1 rc.2 num) acc).1 else acc) cnt := by
          simp only [countSolutions, hfe]
          rw [if_neg hcnt]
          exact countCandidates_fold cfg fuel rc.1 rc.2 _ b cnt h0
        rw [hres]
        apply foldl_le
        intro acc num
        by_cases hv : isValid cfg b rc.1 rc.2 num = true
        · rw [if_pos hv]; exact ih _ acc
        · rw [if_neg hv]

/-- With no completion, the counting search leaves the counter unchanged. -/
theorem countSolutions_none (cfg : SudokuConfig) (hwf : wellFormed cfg) :
    ∀ (fuel : Nat) (b : Grid) (cnt : Nat), Consistent cfg b → ValsLe cfg b →
    (∀ s, ¬IsCompletion cfg b s) → (countSolutions cfg fuel b cnt).1 = cnt := by
  intro fuel
  induction fuel with
  | zero => intro b cnt _ _ _; rfl
  | succ fuel ih =>
    intro b cnt hcons hle hnone
    by_cases hcnt : cnt > 1
    · simp [countSolutions, hcnt]
    · cases hfe : firstEmpty cfg b with
      | none =>
        exfalso
        have hcomp : CompleteG cfg b := fun r c hr hc =>
          (firstEmpty_eq_none_iff cfg b).1 hfe r c hr hc
        exact hnone b (completion_self cfg b hcomp hcons hle)
      | some rc =>
        obtain ⟨hr, hc, h0⟩ := firstEmpty_some cfg b rc hfe
        have hres : (countSolutions cfg (fuel + 1) b cnt).1 =
            (oneTo cfg.size).foldl (fun acc num => if isValid cfg b rc.1 rc.2 num = true then
              (countSolutions cfg fuel (setCell b rc.1 rc.2 num) acc).1 else acc) cnt := by
          simp only [countSolutions, hfe]
          rw [if_neg hcnt]
          exact countCandidates_fold cfg fuel rc.1 rc.2 _ b cnt h0
        rw [hres]
        apply foldl_id_of_mem
        intro num hnum acc
        by_cases hv : isValid cfg b rc.1 rc.2 num = true
        · rw [if_pos hv]
          apply ih _ acc
          · exact consistent_setCell_isValid cfg b rc.1 rc.2 num hwf hcons hr hc hv
          · exact valsLe_setCell cfg b rc.1 rc.2 num hle ((oneTo_mem _ _).1 hnum).2
          · intro s hs
            exact hnone s (completion_unset cfg b s rc.1 rc.2 num h0 hs)
        · rw [if_neg hv]

/-- The fold expression of one counting step, named for reuse. -/
def countStepFold (cfg : SudokuConfig) (fuel : Nat) (b : Grid) (r c : Nat)
    (acc num : Nat) : Nat :=
  if isValid cfg b r c num = true then
    (countSolutions cfg fuel (setCell b r c num) acc).1 else acc

theorem countStepFold_le (cfg : SudokuConfig) (fuel : Nat) (b : Grid) (r c : Nat) :
    ∀ acc num, acc ≤ countStepFold cfg fuel b r c acc num := by
  intro acc num
  unfold countStepFold
  by_cases hv : isValid cfg b r c num = true
  · rw [if_pos hv]; exact countSolutions_mono cfg fuel _ acc
  · rw [if_neg hv]

/-- One unfolding of the counting search at an empty cell, in fold form. -/
theorem countSolutions_succ_fold (cfg : SudokuConfig) (fuel : Nat) (b : Grid)
    (cnt : Nat) (rc : Nat × Nat) (hcnt : ¬cnt > 1) (hfe : firstEmpty cfg b = some rc) :
    (countSolutions cfg (fuel + 1) b cnt).1 =
      (oneTo cfg.size).foldl (countStepFold cfg fuel b rc.1 rc.2) cnt := by
  have h0 : b rc.1 rc.2 = 0 := (firstEmpty_some cfg b rc hfe).2.2
  simp only [countSolutions, hfe]
  rw [if_neg hcnt]
  exact countCandidates_fold cfg fuel rc.1 rc.2 _ b cnt h0

/-- With at least one completion and sufficient fuel, the counting search
reaches at least `min (cnt + 1) 2`. -/
theorem countSolutions_ge_one (cfg : SudokuConfig) (hwf : wellFormed cfg) :
    ∀ (fuel : Nat) (b : Grid) (cnt : Nat) (s : Grid), numZeros cfg b < fuel →
    Consistent cfg b → ValsLe cfg b → IsCompletion cfg b s →
    min (cnt + 1) 2 ≤ (countSolutions cfg fuel b cnt).1 := by
  intro fuel
  induction fuel with
  | zero => intro b cnt s h; omega
  | succ fuel ih =>
    intro b cnt s hfuel hcons hle hs
    by_cases hcnt : cnt > 1
    · have : (countSolutions cfg (fuel + 1) b cnt).1 = cnt := by
        simp [countSolutions, hcnt]
      omega
    · cases hfe : firstEmpty cfg b with
      | none =>
        have : (countSolutions cfg (fuel + 1) b cnt).1 = cnt + 1 := by
          simp [countSolutions, hcnt, hfe]
        omega
      | some rc =>
        obtain ⟨hr, hc, h0⟩ := firstEmpty_some cfg b rc hfe
        rw [countSolutions_succ_fold cfg fuel b cnt rc hcnt hfe]
        set v := s rc.1 rc.2 with hv
        have hvmem : v ∈ oneTo cfg.size := (oneTo_mem _ _).2 (hs.1 rc.1 rc.2 hr hc)
        obtain ⟨l1, l2, hsplit⟩ := List.append_of_mem hvmem
        rw [hsplit, List.foldl_append, List.foldl_cons]
        have hmono1 : cnt ≤ l1.foldl (countStepFold cfg fuel b rc.1 rc.2) cnt :=
          foldl_le _ (countStepFold_le cfg fuel b rc.1 rc.2) l1 cnt
        set acc1 := l1.foldl (countStepFold cfg fuel b rc.1 rc.2) cnt with hacc1
        have hvv : isValid cfg b rc.1 rc.2 v = true :=
          isValid_of_completion cfg b s rc.1 rc.2 hwf hs hr hc h0
        have hstep : countStepFold cfg fuel b rc.1 rc.2 acc1 v =
            (countSolutions cfg fuel (setCell b rc.1 rc.2 v) acc1).1 := by
          unfold countStepFold
          rw [if_pos hvv]
        have hv0 : v ≠ 0 := by
          have := (hs.1 rc.1 rc.2 hr hc).1
          omega
        have hrec : min (acc1 + 1) 2 ≤
            (countSolutions cfg fuel (setCell b rc.1 rc.2 v) acc1).1 := by
          apply ih _ acc1 s
          · have := numZeros_setCell cfg b rc.1 rc.2 v hr hc h0 hv0
            omega
          · exact consistent_setCell_isValid cfg b rc.1 rc.2 v hwf hcons hr hc hvv
          · exact valsLe_setCell cfg b rc.1 rc.2 v hle (hs.1 rc.1 rc.2 hr hc).2
          · exact completion_setCell cfg b s rc.1 rc.2 v hs rfl
        have hmono2 : countStepFold cfg fuel b rc.1 rc.2 acc1 v ≤
            l2.foldl (countStepFold cfg fuel b rc.1 rc.2)
              (countStepFold cfg fuel b rc.1 rc.2 acc1 v) :=
          foldl_le _ (countStepFold_le cfg fuel b rc.1 rc.2) l2 _
        rw [hstep] at hmono2 ⊢
        omega

/-- Splitting a list at two distinct members, in scan order. -/
theorem mem_split_pair {α : Type} (l : List α) (a b : α) (ha : a ∈ l) (hb : b ∈ l)
    (hne : a ≠ b) :
    ∃ x y l1 l2 l3, ((x = a ∧ y = b) ∨ (x = b ∧ y = a)) ∧
      l = l1 ++ x :: (l2 ++ y :: l3) := by
  obtain ⟨p, q, rfl⟩ := List.append_of_mem ha
  rcases List.mem_append.1 hb with hbp | hbq
  · obtain ⟨p1, p2, rfl⟩ := List.append_of_mem hbp
    exact ⟨b, a, p1, p2, q, Or.inr ⟨rfl, rfl⟩, by simp⟩
  · rcases List.mem_cons.1 hbq with hba | hbq'
    · exact absurd hba.symm hne
    · obtain ⟨q1, q2, rfl⟩ := List.append_of_mem hbq'
      exact ⟨a, b, p, q1, q2, Or.inl ⟨rfl, rfl⟩, by simp⟩

/-- With two in-range-distinguishable completions and sufficient fuel, the
counting search reaches at least 2. -/
theorem countSolutions_ge_two (cfg : SudokuConfig) (hwf : wellFormed cfg) :
    ∀ (fuel : Nat) (b : Grid) (cnt : Nat) (s1 s2 : Grid), numZeros cfg b < fuel →
    Consistent cfg b → ValsLe cfg b → IsCompletion cfg b s1 →
    IsCompletion cfg b s2 → ¬EqOnGrid cfg s1 s2 →
    2 ≤ (countSolutions cfg fuel b cnt).1 := by
  intro fuel
  induction fuel with
  | zero => intro b cnt s1 s2 h; omega
  | succ fuel ih =>
    intro b cnt s1 s2 hfuel hcons hle hs1 hs2 hne
    by_cases hcnt : cnt > 1
    · have : (countSolutions cfg (fuel + 1) b cnt).1 = cnt := by
        simp [countSolutions, hcnt]
      omega
    · cases hfe : firstEmpty cfg b with
      | none =>
        exfalso
        have hcomp : CompleteG cfg b := fun r c hr hc =>
          (firstEmpty_eq_none_iff cfg b).1 hfe r c hr hc
        have e1 := completion_of_complete_eq cfg b s1 hcomp hs1
        have e2 := completion_of_complete_eq cfg b s2 hcomp hs2
        exact hne (fun r c hr hc => (e1 r c hr hc).trans (e2 r c hr hc).symm)
      | some rc =>
        obtain ⟨hr, hc, h0⟩ := firstEmpty_some cfg b rc hfe
        rw [countSolutions_succ_fold cfg fuel b cnt rc hcnt hfe]
        by_cases hvv : s1 rc.1 rc.2 = s2 rc.1 rc.2
        · -- both completions pass through the same branch, which still has
          -- two distinguishable completions
          set v := s1 rc.1 rc.2 with hdefv
          have hvmem : v ∈ oneTo cfg.size := (oneTo_mem _ _).2 (hs1.1 rc.1 rc.2 hr hc)
          obtain ⟨l1, l2, hsplit⟩ := List.append_of_mem hvmem
          rw [hsplit, List.foldl_append, List.foldl_cons]
          set acc1 := l1.foldl (countStepFold cfg fuel b rc.1 rc.2) cnt with hacc1
          have hval : isValid cfg b rc.1 rc.2 v = true :=
            isValid_of_completion cfg b s1 rc.1 rc.2 hwf hs1 hr hc h0
          have hv0 : v ≠ 0 := by
            have := (hs1.1 rc.1 rc.2 hr hc).1
            omega
          have hrec : 2 ≤ (countSolutions cfg fuel (setCell b rc.1 rc.2 v) acc1).1 := by
            apply ih _ acc1 s1 s2
            · have := numZeros_setCell cfg b rc.1 rc.2 v hr hc h0 hv0
              omega
            · exact consistent_setCell_isValid cfg b rc.1 rc.2 v hwf hcons hr hc hval
            · exact valsLe_setCell cfg b rc.1 rc.2 v hle (hs1.1 rc.1 rc.2 hr hc).2
            · exact completion_setCell cfg b s1 rc.1 rc.2 v hs1 rfl
            · exact completion_setCell cfg b s2 rc.1 rc.2 v hs2 hvv.symm
            · exact hne
          have hstep : countStepFold cfg fuel b rc.1 rc.2 acc1 v =
              (countSolutions cfg fuel (setCell b rc.1 rc.2 v) acc1).1 := by
            unfold countStepFold
            rw [if_pos hval]
          have hmono2 : countStepFold cfg fuel b rc.1 rc.2 acc1 v ≤
              l2.foldl (countStepFold cfg fuel b rc.1 rc.2)
                (countStepFold cfg fuel b rc.1 rc.2 acc1 v) :=
            foldl_le _ (countStepFold_le cfg fuel b rc.1 rc.2) l2 _
          rw [hstep] at hmono2 ⊢
          omega
        · -- the two completions take two different branches, each adding one
          have hm1 : s1 rc.1 rc.2 ∈ oneTo cfg.size :=
            (oneTo_mem _ _).2 (hs1.1 rc.1 rc.2 hr hc)
          have hm2 : s2 rc.1 rc.2 ∈ oneTo cfg.size :=
            (oneTo_mem _ _).2 (hs2.1 rc.1 rc.2 hr hc)
          obtain ⟨x, y, l1, l2, l3, hxy, hsplit⟩ :=
            mem_split_pair (oneTo cfg.size) _ _ hm1 hm2 hvv
          have hbranch : ∀ z : Nat, (z = s1 rc.1 rc.2 ∨ z = s2 rc.1 rc.2) →
              ∀ acc, min (acc + 1) 2 ≤
                (countSolutions cfg fuel (setCell b rc.1 rc.2 z) acc).1 := by
            intro z hz acc
            have hsz : ∃ sz, IsCompletion cfg b sz ∧ sz rc.1 rc.2 = z := by
              rcases hz with rfl | rfl
              · exact ⟨s1, hs1, rfl⟩
              · exact ⟨s2, hs2, rfl⟩
            obtain ⟨sz, hsz, hszv⟩ := hsz
            have hval : isValid cfg b rc.1 rc.2 z = true := by
              rw [← hszv]
              exact isValid_of_completion cfg b sz rc.1 rc.2 hwf hsz hr hc h0
            have hz0 : z ≠ 0 := by
              have := (hsz.1 rc.1 rc.2 hr hc).1
              omega
            apply countSolutions_ge_one cfg hwf fuel _ acc sz
            · have := numZeros_setCell cfg b rc.1 rc.2 z hr hc h0 hz0
              omega
            · exact consistent_setCell_isValid cfg b rc.1 rc.2 z hwf hcons hr hc hval
            · exact valsLe_setCell cfg b rc.1 rc.2 z hle
                (by rw [← hszv]; exact (hsz.1 rc.1 rc.2 hr hc).2)
            · exact completion_setCell cfg b sz rc.1 rc.2 z hsz hszv
          have hxs : x = s1 rc.1 rc.2 ∨ x = s2 rc.1 rc.2 := by
            rcases hxy with ⟨hx, _⟩ | ⟨hx, _⟩
            · exact Or.inl hx
            · exact Or.inr hx
          have hys : y = s1 rc.1 rc.2 ∨ y = s2 rc.1 rc.2 := by
            rcases hxy with ⟨_, hy⟩ | ⟨_, hy⟩
            · exact Or.inr hy
            · exact Or.inl hy
          have hxval : isValid cfg b rc.1 rc.2 x = true := by
            rcases hxs with rfl | rfl
            · exact isValid_of_completion cfg b s1 rc.1 rc.2 hwf hs1 hr hc h0
            · exact isValid_of_completion cfg b s2 rc.1 rc.2 hwf hs2 hr hc h0
          have hyval : isValid cfg b rc.1 rc.2 y = true := by
            rcases hys with rfl | rfl
            · exact isValid_of_completion cfg b s1 rc.1 rc.2 hwf hs1 hr hc h0
            · exact isValid_of_completion cfg b s2 rc.1 rc.2 hwf hs2 hr hc h0
          rw [hsplit, List.foldl_append, List.foldl_cons, List.foldl_append,
            List.foldl_cons]
          set acc1 := l1.foldl (countStepFold cfg fuel b rc.1 rc.2) cnt with hacc1
          have hstepx : countStepFold cfg fuel b rc.1 rc.2 acc1 x =
              (countSolutions cfg fuel (setCell b rc.1 rc.2 x) acc1).1 := by
            unfold countStepFold
            rw [if_pos hxval]
          have hx1 : 1 ≤ countStepFold cfg fuel b rc.1 rc.2 acc1 x := by
            rw [hstepx]
            have := hbranch x hxs acc1
            omega
          have hmono2 : countStepFold cfg fuel b rc.1 rc.2 acc1 x ≤
              l2.foldl (countStepFold cfg fuel b rc.1 rc.2)
                (countStepFold cfg fuel b rc.1 rc.2 acc1 x) :=
            foldl_le _ (countStepFold_le cfg fuel b rc.1 rc.2) l2 _
          set acc2 := l2.foldl (countStepFold cfg fuel b rc.1 rc.2)
            (countStepFold cfg fuel b rc.1 rc.2 acc1 x) with hacc2
          have hstepy : countStepFold cfg fuel b rc.1 rc.2 acc2 y =
              (countSolutions cfg fuel (setCell b rc.1 rc.2 y) acc2).1 := by
            unfold countStepFold
            rw [if_pos hyval]
          have hy2 : 2 ≤ countStepFold cfg fuel b rc.1 rc.2 acc2 y := by
            rw [hstepy]
            have := hbranch y hys acc2
            omega
          have hmono3 : countStepFold cfg fuel b rc.1 rc.2 acc2 y ≤
              l3.foldl (countStepFold cfg fuel b rc.1 rc.2)
                (countStepFold cfg fuel b rc.1 rc.2 acc2 y) :=
            foldl_le _ (countStepFold_le cfg fuel b rc.1 rc.2) l3 _
          omega

/-- With exactly one completion and sufficient fuel, the counting search
adds exactly one to a counter at most 1. -/
theorem countSolutions_unique_eq (cfg : SudokuConfig) (hwf : wellFormed cfg) :
    ∀ (fuel : Nat) (b : Grid) (cnt : Nat) (s : Grid), numZeros cfg b < fuel →
    cnt ≤ 1 → Consistent cfg b → ValsLe cfg b → IsCompletion cfg b s →
    (∀ s', IsCompletion cfg b s' → EqOnGrid cfg s s') →
    (countSolutions cfg fuel b cnt).1 = cnt + 1 := by
  intro fuel
  induction fuel with
  | zero => intro b cnt s h; omega
  | succ fuel ih =>
    intro b cnt s hfuel hcnt1 hcons hle hs huni
    have hcnt : ¬cnt > 1 := by omega
    cases hfe : firstEmpty cfg b with
    | none => simp [countSolutions, hcnt, hfe]
    | some rc =>
      obtain ⟨hr, hc, h0⟩ := firstEmpty_some cfg b rc hfe
      rw [countSolutions_succ_fold cfg fuel b cnt rc hcnt hfe]
      set v := s rc.1 rc.2 with hdefv
      have hvmem : v ∈ oneTo cfg.size := (oneTo_mem _ _).2 (hs.1 rc.1 rc.2 hr hc)
      obtain ⟨l1, l2, hsplit⟩ := List.append_of_mem hvmem
      have hnd := oneTo_nodup cfg.size
      rw [hsplit] at hnd
      have hndr := hnd.of_append_right
      have hvl2 : v ∉ l2 := (List.nodup_cons.1 hndr).1
      have hdisj := List.disjoint_of_nodup_append hnd
      have hvl1 : v ∉ l1 := fun h => hdisj h (List.mem_cons_self v l2)
      -- a candidate other than the completion value contributes nothing
      have hother : ∀ num, num ∈ oneTo cfg.size → num ≠ v → ∀ acc,
          countStepFold cfg fuel b rc.1 rc.2 acc num = acc := by
        intro num hnum hnv acc
        unfold countStepFold
        by_cases hval : isValid cfg b rc.1 rc.2 num = true
        · rw [if_pos hval]
          apply countSolutions_none cfg hwf fuel _ acc
          · exact consistent_setCell_isValid cfg b rc.1 rc.2 num hwf hcons hr hc hval
          · exact valsLe_setCell cfg b rc.1 rc.2 num hle ((oneTo_mem _ _).1 hnum).2
          · intro s' hs'
            have hb' : IsCompletion cfg b s' :=
              completion_unset cfg b s' rc.1 rc.2 num h0 hs'
            have heq := huni s' hb'
            have hnum0 : num ≠ 0 := by
              have := ((oneTo_mem _ _).1 hnum).1
              omega
            have hv' : s' rc.1 rc.2 = num :=
              completion_setCell_val cfg b s' rc.1 rc.2 num hr hc hnum0 hs'
            have : v = num := by
              rw [hdefv, heq rc.1 rc.2 hr hc, hv']
            exact hnv this.symm
        · rw [if_neg hval]
      rw [hsplit, List.foldl_append, List.foldl_cons]
      have hl1 : l1.foldl (countStepFold cfg fuel b rc.1 rc.2) cnt = cnt := by
        apply foldl_id_of_mem
        intro num hnum acc
        exact hother num (by rw [hsplit]; exact List.mem_append_left _ hnum)
          (fun h => hvl1 (h ▸ hnum)) acc
      rw [hl1]
      have hval : isValid cfg b rc.1 rc.2 v = true :=
        isValid_of_completion cfg b s rc.1 rc.2 hwf hs hr hc h0
      have hv0 : v ≠ 0 := by
        have := (hs.1 rc.1 rc.2 hr hc).1
        omega
      have hvstep : countStepFold cfg fuel b rc.1 rc.2 cnt v = cnt + 1 := by
        unfold countStepFold
        rw [if_pos hval]
        apply ih _ cnt s
        · have := numZeros_setCell cfg b rc.1 rc.2 v hr hc h0 hv0
          omega
        · exact hcnt1
        · exact consistent_setCell_isValid cfg b rc.1 rc.2 v hwf hcons hr hc hval
        · exact valsLe_setCell cfg b rc.1 rc.2 v hle (hs.1 rc.1 rc.2 hr hc).2
        · exact completion_setCell cfg b s rc.1 rc.2 v hs rfl
        · intro s' hs'
          exact huni s' (completion_unset cfg b s' rc.1 rc.2 v h0 hs')
      rw [hvstep]
      apply foldl_id_of_mem
      intro num hnum acc
      exact hother num
        (by rw [hsplit]; exact List.mem_append_right _ (List.mem_cons_of_mem _ hnum))
        (fun h => hvl2 (h ▸ hnum)) acc

/-- `hasUniqueSolution` decides "exactly one completion" on consistent
bounded grids. -/
theorem hasUniqueSolution_iff (cfg : SudokuConfig) (hwf : wellFormed cfg)
    (b : Grid) (hcons : Consistent cfg b) (hle : ValsLe cfg b) :
    hasUniqueSolution cfg b = true ↔ ExactlyOneCompletion cfg b := by
  unfold hasUniqueSolution
  constructor
  · intro h
    rw [beq_iff_eq] at h
    by_cases hex : ∃ s, IsCompletion cfg b s
    · obtain ⟨s, hs⟩ := hex
      by_cases huni : ∀ s', IsCompletion cfg b s' → EqOnGrid cfg s s'
      · exact ⟨s, hs, huni⟩
      · push_neg at huni
        obtain ⟨s', hs', hne⟩ := huni
        have := countSolutions_ge_two cfg hwf (numZeros cfg (copyGrid b) + 1)
          (copyGrid b) 0 s s' (by omega) hcons hle hs hs' hne
        omega
    · push_neg at hex
      have := countSolutions_none cfg hwf (numZeros cfg (copyGrid b) + 1)
        (copyGrid b) 0 hcons hle hex
      omega
  · rintro ⟨s, hs, huni⟩
    rw [beq_iff_eq]
    exact countSolutions_unique_eq cfg hwf _ (copyGrid b) 0 s (by omega) (by omega)
      hcons hle hs huni

/-! ## Carving-loop invariants -/

/-- Restoring a tentatively zeroed cell reproduces the previous grid. -/
theorem restore_eq (p : Grid) (r c : Nat) :
    setCell (setCell p r c 0) r c (p r c) = p := by
  rw [setCell_setCell, setCell_self]

/-- On the small-grid non-easy path, the carving loop preserves unique
solvability: a cell stays zeroed only when `hasUniqueSolution` holds of
the zeroed grid, and a failed check restores the previous grid exactly. -/
theorem carveLoop_unique (cfg : SudokuConfig) (hwf : wellFormed cfg)
    (hcond : cfg.size ≤ 9 ∧ cfg.difficulty ≠ Difficulty.easy) (quota : Nat) :
    ∀ (positions : List (Nat × Nat)) (p : Grid) (m : Mask) (removed : Nat),
    Consistent cfg p → ValsLe cfg p → ExactlyOneCompletion cfg p →
    (Consistent cfg (carveLoop cfg quota positions p m removed).1 ∧
     ValsLe cfg (carveLoop cfg quota positions p m removed).1 ∧
     ExactlyOneCompletion cfg (carveLoop cfg quota positions p m removed).1) := by
  intro positions
  induction positions with
  | nil => intro p m removed hcons hle huni; exact ⟨hcons, hle, huni⟩
  | cons rc rest ih =>
    intro p m removed hcons hle huni
    by_cases hstop : removed ≥ quota
    · have : carveLoop cfg quota (rc :: rest) p m removed = (p, m) := by
        simp [carveLoop, hstop]
      rw [this]
      exact ⟨hcons, hle, huni⟩
    · have hcons' : Consistent cfg (setCell p rc.1 rc.2 0) :=
        consistent_setCell_zero cfg p rc.1 rc.2 hcons
      have hle' : ValsLe cfg (setCell p rc.1 rc.2 0) :=
        valsLe_setCell cfg p rc.1 rc.2 0 hle (Nat.zero_le _)
      by_cases hu : hasUniqueSolution cfg (setCell p rc.1 rc.2 0) = true
      · have hres : carveLoop cfg quota (rc :: rest) p m removed =
            carveLoop cfg quota rest (setCell p rc.1 rc.2 0)
              (setMask m rc.1 rc.2 false) (removed + 1) := by
          simp [carveLoop, hstop, hcond, hu]
        rw [hres]
        exact ih _ _ _ hcons' hle'
          ((hasUniqueSolution_iff cfg hwf _ hcons' hle').1 hu)
      · have hres : carveLoop cfg quota (rc :: rest) p m removed =
            carveLoop cfg quota rest
              (setCell (setCell p rc.1 rc.2 0) rc.1 rc.2 (p rc.1 rc.2))
              (setMask (setMask m rc.1 rc.2 false) rc.1 rc.2 true) removed := by
          simp [carveLoop, hstop, hcond, hu]
        rw [hres, restore_eq]
        exact ih _ _ _ hcons hle huni

/-- The mask invariant of a carving state: preset cells still hold the
solution value, non-preset cells are zero. -/
def MaskInv (sol p : Grid) (m : Mask) : Prop :=
  ∀ r c, (m r c = true → p r c = sol r c) ∧ (m r c = false → p r c = 0)

/-- Zeroing a cell and clearing its preset flag preserves the mask
invariant. -/
theorem maskInv_zero (sol p : Grid) (m : Mask) (r c : Nat) (h : MaskInv sol p m) :
    MaskInv sol (setCell p r c 0) (setMask m r c false) := by
  intro r' c'
  by_cases hcase : r' = r ∧ c' = c
  · obtain ⟨rfl, rfl⟩ := hcase
    refine ⟨?_, ?_⟩
    · intro habs
      rw [setMask_same] at habs
      cases habs
    · intro _
      rw [setCell_same]
  · rw [setCell_ne _ _ _ _ _ _ hcase, setMask_ne _ _ _ _ _ _ hcase]
    exact h r' c'

/-- The carving loop of `generatePuzzle` preserves the mask invariant, as
long as the yet-unvisited positions are distinct and still preset. -/
theorem carveLoop_mask (cfg : SudokuConfig) (quota : Nat) (sol : Grid) :
    ∀ (positions : List (Nat × Nat)) (p : Grid) (m : Mask) (removed : Nat),
    positions.Nodup → (∀ rc ∈ positions, m rc.1 rc.2 = true) → MaskInv sol p m →
    MaskInv sol (carveLoop cfg quota positions p m removed).1
      (carveLoop cfg quota positions p m removed).2 := by
  intro positions
  induction positions with
  | nil => intro p m removed _ _ h; exact h
  | cons rc rest ih =>
    intro p m removed hnd hpre h
    by_cases hstop : removed ≥ quota
    · have : carveLoop cfg quota (rc :: rest) p m removed = (p, m) := by
        simp [carveLoop, hstop]
      rw [this]
      exact h
    · have hrest_nd : rest.Nodup := (List.nodup_cons.1 hnd).2
      have hhead : rc ∉ rest := (List.nodup_cons.1 hnd).1
      have hrest_pre : ∀ (m' : Mask), (∀ r' c', ¬(r' = rc.1 ∧ c' = rc.2) →
          m' r' c' = m r' c') → ∀ rc' ∈ rest, m' rc'.1 rc'.2 = true := by
        intro m' hm' rc' hrc'
        have hne : ¬(rc'.1 = rc.1 ∧ rc'.2 = rc.2) := by
          intro hcon
          exact hhead (Prod.ext hcon.1 hcon.2 ▸ hrc')
        rw [hm' rc'.1 rc'.2 hne]
        exact hpre rc' (List.mem_cons_of_mem _ hrc')
      by_cases hcond : cfg.size ≤ 9 ∧ cfg.difficulty ≠ Difficulty.easy
      · by_cases hu : hasUniqueSolution cfg (setCell p rc.1 rc.2 0) = true
        · have hres : carveLoop cfg quota (rc :: rest) p m removed =
              carveLoop cfg quota rest (setCell p rc.1 rc.2 0)
                (setMask m rc.1 rc.2 false) (removed + 1) := by
            simp [carveLoop, hstop, hcond, hu]
          rw [hres]
          apply ih _ _ _ hrest_nd
          · exact hrest_pre _ (fun r' c' hne => setMask_ne m rc.1 rc.2 false r' c' hne)
          · exact maskInv_zero sol p m rc.1 rc.2 h
        · have hmrc : m rc.1 rc.2 = true := hpre rc (List.mem_cons_self _ _)
          have hmask : setMask (setMask m rc.1 rc.2 false) rc.1 rc.2 true = m := by
            rw [setMask_setMask, ← hmrc, setMask_self]
          have h1 : carveLoop cfg quota (rc :: rest) p m removed =
              carveLoop cfg quota rest
                (setCell (setCell p rc.1 rc.2 0) rc.1 rc.2 (p rc.1 rc.2))
                (setMask (setMask m rc.1 rc.2 false) rc.1 rc.2 true) removed := by
            simp [carveLoop, hstop, hcond, hu]
          rw [h1, restore_eq, hmask]
          exact ih _ _ _ hrest_nd
            (fun rc' hrc' => hpre rc' (List.mem_cons_of_mem _ hrc')) h
      · have hres : carveLoop cfg quota (rc :: rest) p m removed =
            carveLoop cfg quota rest (setCell p rc.1 rc.2 0)
              (setMask m rc.1 rc.2 false) (removed + 1) := by
          simp [carveLoop, hstop, hcond]
        rw [hres]
        apply ih _ _ _ hrest_nd
        · exact hrest_pre _ (fun r' c' hne => setMask_ne m rc.1 rc.2 false r' c' hne)
        · exact maskInv_zero sol p m rc.1 rc.2 h

/-- Number of non-preset (player-fillable) cells of a mask. -/
def numPresetFalse (cfg : SudokuConfig) (m : Mask) : Nat :=
  (allPositions cfg).countP fun rc => !(m rc.1 rc.2)

/-- Zeroing one cell adds at most one zero. -/
theorem numZeros_setCell_le (cfg : SudokuConfig) (p : Grid) (r c : Nat) :
    numZeros cfg (setCell p r c 0) ≤ numZeros cfg p + 1 := by
  unfold numZeros
  apply countP_le_update_of_nodup (r, c) _ (allPositions_nodup cfg)
  intro y hy hne
  have : ¬(y.1 = r ∧ y.2 = c) := fun h => hne (Prod.ext h.1 h.2)
  rw [setCell_ne _ _ _ _ _ _ this]

/-- The carving loop never leaves more zeros than the quota. -/
theorem carveLoop_zeros_le (cfg : SudokuConfig) (quota : Nat) :
    ∀ (positions : List (Nat × Nat)) (p : Grid) (m : Mask) (removed : Nat),
    numZeros cfg p ≤ removed → removed ≤ quota →
    numZeros cfg (carveLoop cfg quota positions p m removed).1 ≤ quota := by
  intro positions
  induction positions with
  | nil => intro p m removed h1 h2; exact Nat.le_trans h1 h2
  | cons rc rest ih =>
    intro p m removed h1 h2
    by_cases hstop : removed ≥ quota
    · have : carveLoop cfg quota (rc :: rest) p m removed = (p, m) := by
        simp [carveLoop, hstop]
      rw [this]
      exact Nat.le_trans h1 h2
    · have hzer : numZeros cfg (setCell p rc.1 rc.2 0) ≤ removed + 1 :=
        Nat.le_trans (numZeros_setCell_le cfg p rc.1 rc.2) (by omega)
      by_cases hcond : cfg.size ≤ 9 ∧ cfg.difficulty ≠ Difficulty.easy
      · by_cases hu : hasUniqueSolution cfg (setCell p rc.1 rc.2 0) = true
        · have hres : carveLoop cfg quota (rc :: rest) p m removed =
              carveLoop cfg quota rest (setCell p rc.1 rc.2 0)
                (setMask m rc.1 rc.2 false) (removed + 1) := by
            simp [carveLoop, hstop, hcond, hu]
          rw [hres]
          exact ih _ _ _ hzer (by omega)
        · have h1' : carveLoop cfg quota (rc :: rest) p m removed =
              carveLoop cfg quota rest
                (setCell (setCell p rc.1 rc.2 0) rc.1 rc.2 (p rc.1 rc.2))
                (setMask (setMask m rc.1 rc.2 false) rc.1 rc.2 true) removed := by
            simp [carveLoop, hstop, hcond, hu]
          rw [h1', restore_eq]
          exact ih _ _ _ h1 h2
      · have hres : carveLoop cfg quota (rc :: rest) p m removed =
            carveLoop cfg quota rest (setCell p rc.1 rc.2 0)
              (setMask m rc.1 rc.2 false) (removed + 1) := by
          simp [carveLoop, hstop, hcond]
        rw [hres]
        exact ih _ _ _ hzer (by omega)

/-- On the no-uniqueness-check path, the carving loop zeroes exactly one
fresh cell per iteration until the quota is reached: both the number of
zeros and the number of non-preset cells end at
`min quota (removed + positions.length)`. -/
theorem carveLoop_exact (cfg : SudokuConfig)
    (hnc : ¬(cfg.size ≤ 9 ∧ cfg.difficulty ≠ Difficulty.easy)) (quota : Nat) :
    ∀ (positions : List (Nat × Nat)) (p : Grid) (m : Mask) (removed : Nat),
    positions.Nodup →
    (∀ rc ∈ positions, rc.1 < cfg.size ∧ rc.2 < cfg.size ∧
      p rc.1 rc.2 ≠ 0 ∧ m rc.1 rc.2 = true) →
    numZeros cfg p = removed → numPresetFalse cfg m = removed → removed ≤ quota →
    numZeros cfg (carveLoop cfg quota positions p m removed).1 =
      min quota (removed + positions.length) ∧
    numPresetFalse cfg (carveLoop cfg quota positions p m removed).2 =
      min quota (removed + positions.length) := by
  intro positions
  induction positions with
  | nil =>
    intro p m removed _ _ h1 h2 h3
    constructor
    · simp only [carveLoop, List.length_nil, Nat.add_zero]
      omega
    · simp only [carveLoop, List.length_nil, Nat.add_zero]
      omega
  | cons rc rest ih =>
    intro p m removed hnd hpos h1 h2 h3
    by_cases hstop : removed ≥ quota
    · have heq : carveLoop cfg quota (rc :: rest) p m removed = (p, m) := by
        simp [carveLoop, hstop]
      rw [heq]
      constructor
      · rw [h1]
        omega
      · rw [h2]
        omega
    · obtain ⟨hr, hc, hnz, hmt⟩ := hpos rc (List.mem_cons_self _ _)
      have hres : carveLoop cfg quota (rc :: rest) p m removed =
          carveLoop cfg quota rest (setCell p rc.1 rc.2 0)
            (setMask m rc.1 rc.2 false) (removed + 1) := by
        simp [carveLoop, hstop, hnc]
      rw [hres]
      have hmem : (rc.1, rc.2) ∈ allPositions cfg :=
        (mem_allPositions cfg (rc.1, rc.2)).2 ⟨hr, hc⟩
      have hz' : numZeros cfg (setCell p rc.1 rc.2 0) = removed + 1 := by
        unfold numZeros
        rw [← h1]
        unfold numZeros
        apply countP_update_of_nodup (rc.1, rc.2) _ (allPositions_nodup cfg) hmem
        · intro y hy hne
          have : ¬(y.1 = rc.1 ∧ y.2 = rc.2) := fun h => hne (Prod.ext h.1 h.2)
          rw [setCell_ne _ _ _ _ _ _ this]
        · simp [setCell_same]
        · simp [hnz]
      have hm' : numPresetFalse cfg (setMask m rc.1 rc.2 false) = removed + 1 := by
        unfold numPresetFalse
        rw [← h2]
        unfold numPresetFalse
        apply countP_update_of_nodup (rc.1, rc.2) _ (allPositions_nodup cfg) hmem
        · intro y hy hne
          have : ¬(y.1 = rc.1 ∧ y.2 = rc.2) := fun h => hne (Prod.ext h.1 h.2)
          rw [setMask_ne _ _ _ _ _ _ this]
        · simp [setMask_same]
        · simp [hmt]
      have hhead : rc ∉ rest := (List.nodup_cons.1 hnd).1
      have hrest : ∀ rc' ∈ rest, rc'.1 < cfg.size ∧ rc'.2 < cfg.size ∧
          setCell p rc.1 rc.2 0 rc'.1 rc'.2 ≠ 0 ∧
          setMask m rc.1 rc.2 false rc'.1 rc'.2 = true := by
        intro rc' hrc'
        obtain ⟨h1', h2', h3', h4'⟩ := hpos rc' (List.mem_cons_of_mem _ hrc')
        have hne : ¬(rc'.1 = rc.1 ∧ rc'.2 = rc.2) := by
          intro hcon
          exact hhead (Prod.ext hcon.1 hcon.2 ▸ hrc')
        rw [setCell_ne _ _ _ _ _ _ hne, setMask_ne _ _ _ _ _ _ hne]
        exact ⟨h1', h2', h3', h4'⟩
      have := ih (setCell p rc.1 rc.2 0) (setMask m rc.1 rc.2 false) (removed + 1)
        (List.nodup_cons.1 hnd).2 hrest hz' hm' (by omega)
      constructor
      · rw [this.1]
        simp only [List.length_cons]
        omega
      · rw [this.2]
        simp only [List.length_cons]
        omega

/-- A complete grid has no zeros. -/
theorem numZeros_eq_zero (cfg : SudokuConfig) (b : Grid) (h : CompleteG cfg b) :
    numZeros cfg b = 0 := by
  unfold numZeros
  rw [List.countP_eq_zero]
  intro rc hrc
  obtain ⟨hr, hc⟩ := (mem_allPositions cfg rc).1 hrc
  simp [h rc.1 rc.2 hr hc]

/-- The all-`true` mask has no non-preset cells. -/
theorem numPresetFalse_allTrue (cfg : SudokuConfig) :
    numPresetFalse cfg allTrueMask = 0 := by
  unfold numPresetFalse
  rw [List.countP_eq_zero]
  intro rc _
  simp [allTrueMask]

/-- The removal quota never exceeds the number of cells. -/
theorem cellsToRemove_le (cfg : SudokuConfig) :
    cellsToRemove cfg ≤ cfg.size * cfg.size := by
  have h : ∀ pct, pct ≤ 100 → cfg.size * cfg.size * pct / 100 ≤ cfg.size * cfg.size := by
    intro pct hpct
    calc cfg.size * cfg.size * pct / 100
        ≤ cfg.size * cfg.size * 100 / 100 :=
          Nat.div_le_div_right (Nat.mul_le_mul_left _ hpct)
      _ = cfg.size * cfg.size := Nat.mul_div_cancel _ (by omega)
  unfold cellsToRemove
  cases cfg.difficulty with
  | easy => exact h 40 (by omega)
  | medium => exact h 55 (by omega)
  | hard => exact h 70 (by omega)

theorem isSolutionValid_iff (cfg : SudokuConfig) (b sol : Grid) :
    isSolutionValid cfg b sol = true ↔
    ∀ r c, r < cfg.size → c < cfg.size → b r c ≠ 0 → b r c = sol r c := by
  unfold isSolutionValid
  simp only [List.all_eq_true, List.mem_range]
  constructor
  · intro h r c hr hc hnz
    have := h r hr c hc
    by_cases heq : b r c = sol r c
    · exact heq
    · exfalso
      simp [hnz, heq] at this
  · intro h r hr c hc
    by_cases hnz : b r c = 0
    · simp [hnz]
    · simp [hnz, h r c hr hc hnz]

/-- `zeroCells` preserves the mask invariant. -/
theorem zeroCells_maskInv (sol : Grid) :
    ∀ (l : List (Nat × Nat)) (p : Grid) (m : Mask), MaskInv sol p m →
    MaskInv sol (zeroCells l (p, m)).1 (zeroCells l (p, m)).2 := by
  intro l
  induction l with
  | nil => intro p m h; exact h
  | cons rc rest ih =>
    intro p m h
    have : zeroCells (rc :: rest) (p, m) =
        zeroCells rest (setCell p rc.1 rc.2 0, setMask m rc.1 rc.2 false) := rfl
    rw [this]
    exact ih _ _ (maskInv_zero sol p m rc.1 rc.2 h)

/-- Fold preservation of a state invariant. -/
theorem foldl_preserve {α β : Type} (P : β → Prop) (g : β → α → β)
    (l : List α) (hstep : ∀ st x, P st → P (g st x)) :
    ∀ st, P st → P (l.foldl g st) := by
  induction l with
  | nil => intro st h; exact h
  | cons x rest ih =>
    intro st h
    exact ih _ (hstep st x h)

/-- Each sub-region step of the quick generator preserves the mask
invariant. -/
theorem quickBoxStep_maskInv (cfg : SudokuConfig) (f : Nat → Nat) (sol : Grid)
    (st : Grid × Mask × Nat) (rc : Nat × Nat) (h : MaskInv sol st.1 st.2.1) :
    MaskInv sol (quickBoxStep cfg f st rc).1 (quickBoxStep cfg f st rc).2.1 := by
  unfold quickBoxStep
  exact zeroCells_maskInv sol _ st.1 st.2.1 h

/-! ## Validator scan characterization -/

theorem scanUnit_succ (kind : ConflictType) (b : Grid) (cell : Nat → Nat × Nat)
    (i m : Nat) (seen : List Nat) :
    scanUnit kind b cell i (m + 1) seen =
      if b (cell i).1 (cell i).2 ≠ 0 then
        if b (cell i).1 (cell i).2 ∈ seen then
          { row := (cell i).1, col := (cell i).2, value := b (cell i).1 (cell i).2,
            type := kind } :: scanUnit kind b cell (i + 1) m seen
        else scanUnit kind b cell (i + 1) m (b (cell i).1 (cell i).2 :: seen)
      else scanUnit kind b cell (i + 1) m seen := rfl

/-- Every emitted conflict carries the scan's tag, sits at a scanned cell,
and records that cell's grid value. -/
theorem scanUnit_shape (kind : ConflictType) (b : Grid) (cell : Nat → Nat × Nat) :
    ∀ (m i : Nat) (seen : List Nat) (cf : Conflict),
    cf ∈ scanUnit kind b cell i m seen →
    cf.type = kind ∧ ∃ j, i ≤ j ∧ j < i + m ∧ (cf.row, cf.col) = cell j ∧
      cf.value = b (cell j).1 (cell j).2 ∧ cf.value ≠ 0 := by
  intro m
  induction m with
  | zero => intro i seen cf h; cases h
  | succ m ih =>
    intro i seen cf h
    rw [scanUnit_succ] at h
    by_cases h0 : b (cell i).1 (cell i).2 ≠ 0
    · rw [if_pos h0] at h
      by_cases hseen : b (cell i).1 (cell i).2 ∈ seen
      · rw [if_pos hseen] at h
        rcases List.mem_cons.1 h with rfl | h'
        · exact ⟨rfl, i, Nat.le_refl i, by omega, rfl, rfl, h0⟩
        · obtain ⟨ht, j, hj1, hj2, hj3, hj4, hj5⟩ := ih (i + 1) seen cf h'
          exact ⟨ht, j, by omega, by omega, hj3, hj4, hj5⟩
      · rw [if_neg hseen] at h
        obtain ⟨ht, j, hj1, hj2, hj3, hj4, hj5⟩ := ih (i + 1) _ cf h
        exact ⟨ht, j, by omega, by omega, hj3, hj4, hj5⟩
    · rw [if_neg h0] at h
      obtain ⟨ht, j, hj1, hj2, hj3, hj4, hj5⟩ := ih (i + 1) seen cf h
      exact ⟨ht, j, by omega, by omega, hj3, hj4, hj5⟩

/-- A value absent from the scanned cells produces no conflict entry. -/
theorem scanUnit_filter_none (kind : ConflictType) (b : Grid)
    (cell : Nat → Nat × Nat) (v : Nat) :
    ∀ (m i : Nat) (seen : List Nat),
    (∀ j, i ≤ j → j < i + m → b (cell j).1 (cell j).2 ≠ v) →
    (scanUnit kind b cell i m seen).filter (fun cf => cf.value == v) = [] := by
  intro m
  induction m with
  | zero => intro i seen _; rfl
  | succ m ih =>
    intro i seen hno
    rw [scanUnit_succ]
    have hvi : b (cell i).1 (cell i).2 ≠ v := hno i (Nat.le_refl i) (by omega)
    have hrest : ∀ j, i + 1 ≤ j → j < i + 1 + m → b (cell j).1 (cell j).2 ≠ v := by
      intro j h1 h2
      exact hno j (by omega) (by omega)
    by_cases h0 : b (cell i).1 (cell i).2 ≠ 0
    · rw [if_pos h0]
      by_cases hseen : b (cell i).1 (cell i).2 ∈ seen
      · rw [if_pos hseen, List.filter_cons]
        simp only [hvi, beq_iff_eq, if_neg]
        exact ih (i + 1) seen hrest
      · rw [if_neg hseen]
        exact ih (i + 1) _ hrest
    · rw [if_neg h0]
      exact ih (i + 1) seen hrest

/-- A single occurrence of an already-seen value yields exactly one
conflict entry, at that occurrence. -/
theorem scanUnit_one_seen (kind : ConflictType) (b : Grid)
    (cell : Nat → Nat × Nat) (v : Nat) (hv : v ≠ 0) :
    ∀ (m i : Nat) (seen : List Nat) (t : Nat), i ≤ t → t < i + m →
    b (cell t).1 (cell t).2 = v → v ∈ seen →
    (∀ j, i ≤ j → j < i + m → j ≠ t → b (cell j).1 (cell j).2 ≠ v) →
    (scanUnit kind b cell i m seen).filter (fun cf => cf.value == v) =
      [{ row := (cell t).1, col := (cell t).2, value := v, type := kind }] := by
  intro m
  induction m with
  | zero => intro i seen t h1 h2; omega
  | succ m ih =>
    intro i seen t h1 h2 hval hseen hothers
    rw [scanUnit_succ]
    by_cases hit : i = t
    · subst hit
      rw [if_pos (by rw [hval]; exact hv), if_pos (by rw [hval]; exact hseen),
        List.filter_cons]
      simp only [hval, beq_self_eq_true, if_pos]
      rw [scanUnit_filter_none kind b cell v m (i + 1) seen
        (fun j hj1 hj2 => hothers j (by omega) (by omega) (by omega))]
    · have hvi : b (cell i).1 (cell i).2 ≠ v :=
        hothers i (Nat.le_refl i) (by omega) hit
      have hrest : ∀ j, i + 1 ≤ j → j < i + 1 + m → j ≠ t →
          b (cell j).1 (cell j).2 ≠ v := by
        intro j hj1 hj2
        exact hothers j (by omega) (by omega)
      by_cases h0 : b (cell i).1 (cell i).2 ≠ 0
      · rw [if_pos h0]
        by_cases hsn : b (cell i).1 (cell i).2 ∈ seen
        · rw [if_pos hsn, List.filter_cons]
          simp only [hvi, beq_iff_eq, if_neg]
          exact ih (i + 1) seen t (by omega) (by omega) hval hseen hrest
        · rw [if_neg hsn]
          exact ih (i + 1) _ t (by omega) (by omega) hval
            (List.mem_cons_of_mem _ hseen) hrest
      · rw [if_neg h0]
        exact ih (i + 1) seen t (by omega) (by omega) hval hseen hrest

/-- A single occurrence of an unseen value yields no conflict entry. -/
theorem scanUnit_one_unseen (kind : ConflictType) (b : Grid)
    (cell : Nat → Nat × Nat) (v : Nat) (hv : v ≠ 0) :
    ∀ (m i : Nat) (seen : List Nat) (t : Nat), i ≤ t → t < i + m →
    b (cell t).1 (cell t).2 = v → v ∉ seen →
    (∀ j, i ≤ j → j < i + m → j ≠ t → b (cell j).1 (cell j).2 ≠ v) →
    (scanUnit kind b cell i m seen).filter (fun cf => cf.value == v) = [] := by
  intro m
  induction m with
  | zero => intro i seen t h1 h2; omega
  | succ m ih =>
    intro i seen t h1 h2 hval hseen hothers
    rw [scanUnit_succ]
    by_cases hit : i = t
    · subst hit
      rw [if_pos (by rw [hval]; exact hv), if_neg (by rw [hval]; exact hseen)]
      rw [hval]
      exact scanUnit_filter_none kind b cell v m (i + 1) (v :: seen)
        (fun j hj1 hj2 => hothers j (by omega) (by omega) (by omega))
    · have hvi : b (cell i).1 (cell i).2 ≠ v :=
        hothers i (Nat.le_refl i) (by omega) hit
      have hrest : ∀ j, i + 1 ≤ j → j < i + 1 + m → j ≠ t →
          b (cell j).1 (cell j).2 ≠ v := by
        intro j hj1 hj2
        exact hothers j (by omega) (by omega)
      by_cases h0 : b (cell i).1 (cell i).2 ≠ 0
      · rw [if_pos h0]
        by_cases hsn : b (cell i).1 (cell i).2 ∈ seen
        · rw [if_pos hsn, List.filter_cons]
          simp only [hvi, beq_iff_eq, if_neg]
          exact ih (i + 1) seen t (by omega) (by omega) hval hseen hrest
        · rw [if_neg hsn]
          have hseen' : v ∉ b (cell i).1 (cell i).2 :: seen := by
            intro hmem
            rcases List.mem_cons.1 hmem with heq | hmem'
            · exact hvi heq.symm
            · exact hseen hmem'
          exact ih (i + 1) _ t (by omega) (by omega) hval hseen' hrest
      · rw [if_neg h0]
        exact ih (i + 1) seen t (by omega) (by omega) hval hseen hrest

/-- Exactly two occurrences of an unseen nonzero value yield exactly one
conflict entry, at the later-scanned occurrence. -/
theorem scanUnit_two (kind : ConflictType) (b : Grid)
    (cell : Nat → Nat × Nat) (v : Nat) (hv : v ≠ 0) :
    ∀ (m i : Nat) (seen : List Nat) (t1 t2 : Nat), i ≤ t1 → t1 < t2 → t2 < i + m →
    b (cell t1).1 (cell t1).2 = v → b (cell t2).1 (cell t2).2 = v → v ∉ seen →
    (∀ j, i ≤ j → j < i + m → j ≠ t1 → j ≠ t2 → b (cell j).1 (cell j).2 ≠ v) →
    (scanUnit kind b cell i m seen).filter (fun cf => cf.value == v) =
      [{ row := (cell t2).1, col := (cell t2).2, value := v, type := kind }] := by
  intro m
  induction m with
  | zero => intro i seen t1 t2 h1 h2 h3; omega
  | succ m ih =>
    intro i seen t1 t2 h1 h2 h3 hv1 hv2 hseen hothers
    rw [scanUnit_succ]
    by_cases hit : i = t1
    · subst hit
      rw [if_pos (by rw [hv1]; exact hv), if_neg (by rw [hv1]; exact hseen), hv1]
      exact scanUnit_one_seen kind b cell v hv m (i + 1) (v :: seen) t2
        (by omega) (by omega) hv2 (List.mem_cons_self v seen)
        (fun j hj1 hj2 hjt => hothers j (by omega) (by omega) (by omega) hjt)
    · have hvi : b (cell i).1 (cell i).2 ≠ v :=
        hothers i (Nat.le_refl i) (by omega) hit (by omega)
      have hrest : ∀ j, i + 1 ≤ j → j < i + 1 + m → j ≠ t1 → j ≠ t2 →
          b (cell j).1 (cell j).2 ≠ v := by
        intro j hj1 hj2
        exact hothers j (by omega) (by omega)
      by_cases h0 : b (cell i).1 (cell i).2 ≠ 0
      · rw [if_pos h0]
        by_cases hsn : b (cell i).1 (cell i).2 ∈ seen
        · rw [if_pos hsn, List.filter_cons]
          simp only [hvi, beq_iff_eq, if_neg]
          exact ih (i + 1) seen t1 t2 (by omega) h2 (by omega) hv1 hv2 hseen hrest
        · rw [if_neg hsn]
          have hseen' : v ∉ b (cell i).1 (cell i).2 :: seen := by
            intro hmem
            rcases List.mem_cons.1 hmem with heq | hmem'
            · exact hvi heq.symm
            · exact hseen hmem'
          exact ih (i + 1) _ t1 t2 (by omega) h2 (by omega) hv1 hv2 hseen' hrest
      · rw [if_neg h0]
        exact ih (i + 1) seen t1 t2 (by omega) h2 (by omega) hv1 hv2 hseen hrest

/-- A flat map over a duplicate-free list with a single non-empty image
collapses to that image. -/
theorem flatMap_eq_single {α β : Type} [DecidableEq α] :
    ∀ (l : List α) (g : α → List β) (a : α), a ∈ l → l.Nodup →
    (∀ x ∈ l, x ≠ a → g x = []) → l.flatMap g = g a := by
  intro l
  induction l with
  | nil => intro g a ha; cases ha
  | cons x rest ih =>
    intro g a ha hnd hothers
    rw [List.flatMap_cons]
    by_cases hxa : x = a
    · subst hxa
      have hrest : rest.flatMap g = [] := by
        rw [List.flatMap_eq_nil_iff]
        intro y hy
        exact hothers y (List.mem_cons_of_mem _ hy)
          (fun hya => (List.nodup_cons.1 hnd).1 (hya ▸ hy))
      rw [hrest, List.append_nil]
    · have hx : g x = [] := hothers x (List.mem_cons_self _ _) hxa
      have ha' : a ∈ rest := by
        rcases List.mem_cons.1 ha with h | h
        · exact absurd h.symm hxa
        · exact h
      rw [hx, List.nil_append]
      exact ih g a ha' (List.nodup_cons.1 hnd).2
        (fun y hy => hothers y (List.mem_cons_of_mem _ hy))

/-- For a pair of duplicate values in a row (and no other occurrence of
that value in the row), `validate` reports exactly one `row` conflict, at
the later-scanned cell. -/
theorem validate_row_pair (cfg : SudokuConfig) (b : Grid) (r v c1 c2 : Nat)
    (hr : r < cfg.size) (hc2 : c2 < cfg.size) (h12 : c1 < c2)
    (hv : v ≠ 0) (hv1 : b r c1 = v) (hv2 : b r c2 = v)
    (honly : ∀ x, x < cfg.size → x ≠ c1 → x ≠ c2 → b r x ≠ v) :
    (validateConflicts cfg b).filter
      (fun cf => cf.type == ConflictType.row && cf.row == r && cf.value == v) =
      [{ row := r, col := c2, value := v, type := ConflictType.row }] := by
  unfold validateConflicts
  rw [List.filter_append, List.filter_append]
  have hcol : (colConflicts cfg b).filter
      (fun cf => cf.type == ConflictType.row && cf.row == r && cf.value == v) = [] := by
    rw [List.filter_eq_nil_iff]
    intro cf hcf
    obtain ⟨col, _, hmem⟩ := List.mem_flatMap.1 hcf
    have := (scanUnit_shape ConflictType.column b _ cfg.size 0 [] cf hmem).1
    simp [this]
  have hbox : (boxConflicts cfg b).filter
      (fun cf => cf.type == ConflictType.row && cf.row == r && cf.value == v) = [] := by
    rw [List.filter_eq_nil_iff]
    intro cf hcf
    obtain ⟨rc, _, hmem⟩ := List.mem_flatMap.1 hcf
    have := (scanUnit_shape ConflictType.box b _ _ 0 [] cf hmem).1
    simp [this]
  rw [hcol, hbox, List.append_nil, List.append_nil]
  unfold rowConflicts
  rw [List.filter_flatMap]
  have hsingle : (List.range cfg.size).flatMap
      (fun row => (scanUnit ConflictType.row b (fun col => (row, col)) 0 cfg.size []).filter
        (fun cf => cf.type == ConflictType.row && cf.row == r && cf.value == v)) =
      (scanUnit ConflictType.row b (fun col => (r, col)) 0 cfg.size []).filter
        (fun cf => cf.type == ConflictType.row && cf.row == r && cf.value == v) := by
    apply flatMap_eq_single _ _ r (List.mem_range.2 hr) (List.nodup_range _)
    intro r' _ hne
    rw [List.filter_eq_nil_iff]
    intro cf hcf
    obtain ⟨_, j, _, _, hj3, _, _⟩ :=
      scanUnit_shape ConflictType.row b _ cfg.size 0 [] cf hcf
    have hrow : cf.row = r' := congrArg Prod.fst hj3
    simp [hrow, hne]
  rw [hsingle]
  have hcongr : (scanUnit ConflictType.row b (fun col => (r, col)) 0 cfg.size []).filter
      (fun cf => cf.type == ConflictType.row && cf.row == r && cf.value == v) =
      (scanUnit ConflictType.row b (fun col => (r, col)) 0 cfg.size []).filter
      (fun cf => cf.value == v) := by
    apply List.filter_congr
    intro cf hcf
    obtain ⟨ht, j, _, _, hj3, _, _⟩ :=
      scanUnit_shape ConflictType.row b _ cfg.size 0 [] cf hcf
    have hrow : cf.row = r := congrArg Prod.fst hj3
    simp [ht, hrow]
  rw [hcongr]
  exact scanUnit_two ConflictType.row b (fun col => (r, col)) v hv cfg.size 0 []
    c1 c2 (Nat.zero_le c1) h12 (by omega) hv1 hv2 (List.not_mem_nil v)
    (fun j _ hj2 hj3 hj4 => honly j (by omega) hj3 hj4)

/-- For a pair of duplicate values in a column (and no other occurrence of
that value in the column), `validate` reports exactly one `column`
conflict, at the later-scanned cell. -/
theorem validate_col_pair (cfg : SudokuConfig) (b : Grid) (c v r1 r2 : Nat)
    (hc : c < cfg.size) (hr2 : r2 < cfg.size) (h12 : r1 < r2)
    (hv : v ≠ 0) (hv1 : b r1 c = v) (hv2 : b r2 c = v)
    (honly : ∀ x, x < cfg.size → x ≠ r1 → x ≠ r2 → b x c ≠ v) :
    (validateConflicts cfg b).filter
      (fun cf => cf.type == ConflictType.column && cf.col == c && cf.value == v) =
      [{ row := r2, col := c, value := v, type := ConflictType.column }] := by
  unfold validateConflicts
  rw [List.filter_append, List.filter_append]
  have hrow : (rowConflicts cfg b).filter
      (fun cf => cf.type == ConflictType.column && cf.col == c && cf.value == v) = [] := by
    rw [List.filter_eq_nil_iff]
    intro cf hcf
    obtain ⟨row, _, hmem⟩ := List.mem_flatMap.1 hcf
    have := (scanUnit_shape ConflictType.row b _ cfg.size 0 [] cf hmem).1
    simp [this]
  have hbox : (boxConflicts cfg b).filter
      (fun cf => cf.type == ConflictType.column && cf.col == c && cf.value == v) = [] := by
    rw [List.filter_eq_nil_iff]
    intro cf hcf
    obtain ⟨rc, _, hmem⟩ := List.mem_flatMap.1 hcf
    have := (scanUnit_shape ConflictType.box b _ _ 0 [] cf hmem).1
    simp [this]
  rw [hrow, hbox, List.append_nil, List.nil_append]
  unfold colConflicts
  rw [List.filter_flatMap]
  have hsingle : (List.range cfg.size).flatMap
      (fun col => (scanUnit ConflictType.column b (fun row => (row, col)) 0 cfg.size []).filter
        (fun cf => cf.type == ConflictType.column && cf.col == c && cf.value == v)) =
      (scanUnit ConflictType.column b (fun row => (row, c)) 0 cfg.size []).filter
        (fun cf => cf.type == ConflictType.column && cf.col == c && cf.value == v) := by
    apply flatMap_eq_single _ _ c (List.mem_range.2 hc) (List.nodup_range _)
    intro c' _ hne
    rw [List.filter_eq_nil_iff]
    intro cf hcf
    obtain ⟨_, j, _, _, hj3, _, _⟩ :=
      scanUnit_shape ConflictType.column b _ cfg.size 0 [] cf hcf
    have hcol : cf.col = c' := congrArg Prod.snd hj3
    simp [hcol, hne]
  rw [hsingle]
  have hcongr : (scanUnit ConflictType.column b (fun row => (row, c)) 0 cfg.size []).filter
      (fun cf => cf.type == ConflictType.column && cf.col == c && cf.value == v) =
      (scanUnit ConflictType.column b (fun row => (row, c)) 0 cfg.size []).filter
      (fun cf => cf.value == v) := by
    apply List.filter_congr
    intro cf hcf
    obtain ⟨ht, j, _, _, hj3, _, _⟩ :=
      scanUnit_shape ConflictType.column b _ cfg.size 0 [] cf hcf
    have hcol : cf.col = c := congrArg Prod.snd hj3
    simp [ht, hcol]
  rw [hcongr]
  exact scanUnit_two ConflictType.column b (fun row => (row, c)) v hv cfg.size 0 []
    r1 r2 (Nat.zero_le r1) h12 (by omega) hv1 hv2 (List.not_mem_nil v)
    (fun j _ hj2 hj3 hj4 => honly j (by omega) hj3 hj4)

/-- Exact ceiling division: `(b * a + b - 1) / b = a` for positive `b`. -/
theorem ceilDiv_exact (a b : Nat) (hb : 0 < b) : (b * a + b - 1) / b = a := by
  have h : b * a + b - 1 = b * a + (b - 1) := by omega
  rw [h, Nat.mul_add_div hb, Nat.div_eq_of_lt (by omega), Nat.add_zero]

/-- The sub-region corners of a well-formed shape. -/
theorem mem_boxCorners (cfg : SudokuConfig) (hwf : wellFormed cfg) (rc : Nat × Nat) :
    rc ∈ boxCorners cfg ↔ ∃ a, a < cfg.subCols ∧ ∃ e, e < cfg.subRows ∧
      rc = (a * cfg.subRows, e * cfg.subCols) := by
  obtain ⟨hR, hC, hmul⟩ := hwf
  have hrows : (cfg.size + cfg.subRows - 1) / cfg.subRows = cfg.subCols := by
    rw [← hmul]
    exact ceilDiv_exact cfg.subCols cfg.subRows hR
  have hcols : (cfg.size + cfg.subCols - 1) / cfg.subCols = cfg.subRows := by
    rw [← hmul, Nat.mul_comm]
    exact ceilDiv_exact cfg.subRows cfg.subCols hC
  unfold boxCorners
  rw [hrows, hcols]
  constructor
  · intro h
    obtain ⟨bR, hbR, h2⟩ := List.mem_flatMap.1 h
    obtain ⟨a, haR, rfl⟩ := List.mem_map.1 hbR
    obtain ⟨bC, hbC, rfl⟩ := List.mem_map.1 h2
    obtain ⟨e, heR, rfl⟩ := List.mem_map.1 hbC
    exact ⟨a, List.mem_range.1 haR, e, List.mem_range.1 heR, rfl⟩
  · rintro ⟨a, ha, e, he, rfl⟩
    apply List.mem_flatMap.2
    refine ⟨a * cfg.subRows, List.mem_map.2 ⟨a, List.mem_range.2 ha, rfl⟩, ?_⟩
    exact List.mem_map.2 ⟨e * cfg.subCols,
      List.mem_map.2 ⟨e, List.mem_range.2 he, rfl⟩, rfl⟩

theorem boxCorners_nodup (cfg : SudokuConfig) (hwf : wellFormed cfg) :
    (boxCorners cfg).Nodup := by
  obtain ⟨hR, hC, hmul⟩ := hwf
  unfold boxCorners
  apply List.nodup_flatMap.2
  constructor
  · intro bR _
    apply List.Nodup.map
    · intro x y h
      exact (Prod.mk.injEq _ _ _ _ ▸ h).2
    · exact List.Nodup.map (fun x y h => Nat.eq_of_mul_eq_mul_right hC h)
        (List.nodup_range _)
  · apply List.Pairwise.imp ?_
      (List.Nodup.map (fun x y h => Nat.eq_of_mul_eq_mul_right hR h)
        (List.nodup_range _))
    intro a b hab
    simp only [List.disjoint_left]
    intro rc hrc hrc'
    simp only [List.mem_map] at hrc hrc'
    obtain ⟨c, _, rfl⟩ := hrc
    obtain ⟨c', _, h⟩ := hrc'
    exact hab (congrArg Prod.fst h).symm

/-- The corner of every cell of a sub-region is that sub-region's corner. -/
theorem boxCell_corner (cfg : SudokuConfig) (hwf : wellFormed cfg)
    (a e t : Nat) (ha : a < cfg.subCols) (he : e < cfg.subRows)
    (ht : t < cfg.subRows * cfg.subCols) :
    (boxCell cfg (a * cfg.subRows) (e * cfg.subCols) t).1 -
      (boxCell cfg (a * cfg.subRows) (e * cfg.subCols) t).1 % cfg.subRows =
      a * cfg.subRows ∧
    (boxCell cfg (a * cfg.subRows) (e * cfg.subCols) t).2 -
      (boxCell cfg (a * cfg.subRows) (e * cfg.subCols) t).2 % cfg.subCols =
      e * cfg.subCols := by
  obtain ⟨hR, hC, hmul⟩ := hwf
  unfold boxCell
  constructor
  · rw [Nat.add_comm (a * cfg.subRows) (t / cfg.subCols)]
    apply corner_add
    · exact ⟨a, Nat.mul_comm a cfg.subRows⟩
    · exact Nat.div_lt_iff_lt_mul hC |>.2 ht
  · rw [Nat.add_comm (e * cfg.subCols) (t % cfg.subCols)]
    apply corner_add
    · exact ⟨e, Nat.mul_comm e cfg.subCols⟩
    · exact Nat.mod_lt _ hC

/-- For a pair of duplicate values in a sub-region (and no other occurrence
of that value in the region), `validate` reports exactly one `box`
conflict, at the later-scanned cell. -/
theorem validate_box_pair (cfg : SudokuConfig) (b : Grid) (hwf : wellFormed cfg)
    (v a e t1 t2 : Nat) (ha : a < cfg.subCols) (he : e < cfg.subRows)
    (h12 : t1 < t2) (ht2 : t2 < cfg.subRows * cfg.subCols) (hv : v ≠ 0)
    (hv1 : b (boxCell cfg (a * cfg.subRows) (e * cfg.subCols) t1).1
      (boxCell cfg (a * cfg.subRows) (e * cfg.subCols) t1).2 = v)
    (hv2 : b (boxCell cfg (a * cfg.subRows) (e * cfg.subCols) t2).1
      (boxCell cfg (a * cfg.subRows) (e * cfg.subCols) t2).2 = v)
    (honly : ∀ t, t < cfg.subRows * cfg.subCols → t ≠ t1 → t ≠ t2 →
      b (boxCell cfg (a * cfg.subRows) (e * cfg.subCols) t).1
        (boxCell cfg (a * cfg.subRows) (e * cfg.subCols) t).2 ≠ v) :
    (validateConflicts cfg b).filter
      (fun cf => cf.type == ConflictType.box &&
        (cf.row - cf.row % cfg.subRows == a * cfg.subRows) &&
        (cf.col - cf.col % cfg.subCols == e * cfg.subCols) && cf.value == v) =
      [{ row := (boxCell cfg (a * cfg.subRows) (e * cfg.subCols) t2).1,
         col := (boxCell cfg (a * cfg.subRows) (e * cfg.subCols) t2).2,
         value := v, type := ConflictType.box }] := by
  unfold validateConflicts
  rw [List.filter_append, List.filter_append]
  have hrow : (rowConflicts cfg b).filter
      (fun cf => cf.type == ConflictType.box &&
        (cf.row - cf.row % cfg.subRows == a * cfg.subRows) &&
        (cf.col - cf.col % cfg.subCols == e * cfg.subCols) && cf.value == v) = [] := by
    rw [List.filter_eq_nil_iff]
    intro cf hcf
    obtain ⟨row, _, hmem⟩ := List.mem_flatMap.1 hcf
    have := (scanUnit_shape ConflictType.row b _ cfg.size 0 [] cf hmem).1
    simp [this]
  have hcol : (colConflicts cfg b).filter
      (fun cf => cf.type == ConflictType.box &&
        (cf.row - cf.row % cfg.subRows == a * cfg.subRows) &&
        (cf.col - cf.col % cfg.subCols == e * cfg.subCols) && cf.value == v) = [] := by
    rw [List.filter_eq_nil_iff]
    intro cf hcf
    obtain ⟨col, _, hmem⟩ := List.mem_flatMap.1 hcf
    have := (scanUnit_shape ConflictType.column b _ cfg.size 0 [] cf hmem).1
    simp [this]
  rw [hrow, hcol, List.nil_append, List.nil_append]
  unfold boxConflicts
  rw [List.filter_flatMap]
  have hmemc : ((a * cfg.subRows, e * cfg.subCols) : Nat × Nat) ∈ boxCorners cfg :=
    (mem_boxCorners cfg hwf _).2 ⟨a, ha, e, he, rfl⟩
  have hothers : ∀ rc ∈ boxCorners cfg,
      rc ≠ ((a * cfg.subRows, e * cfg.subCols) : Nat × Nat) →
      (scanUnit ConflictType.box b (boxCell cfg rc.1 rc.2) 0
        (cfg.subRows * cfg.subCols) []).filter
        (fun cf => cf.type == ConflictType.box &&
          (cf.row - cf.row % cfg.subRows == a * cfg.subRows) &&
          (cf.col - cf.col % cfg.subCols == e * cfg.subCols) && cf.value == v) = [] := by
    intro rc hrc hne
    obtain ⟨a', ha', e', he', rfl⟩ := (mem_boxCorners cfg hwf rc).1 hrc
    rw [List.filter_eq_nil_iff]
    intro cf hcf
    obtain ⟨ht, j, _, hj2, hj3, _, _⟩ :=
      scanUnit_shape ConflictType.box b _ _ 0 [] cf hcf
    have hrowc : cf.row = (boxCell cfg (a' * cfg.subRows) (e' * cfg.subCols) j).1 :=
      congrArg Prod.fst hj3
    have hcolc : cf.col = (boxCell cfg (a' * cfg.subRows) (e' * cfg.subCols) j).2 :=
      congrArg Prod.snd hj3
    obtain ⟨hcr, hcc⟩ := boxCell_corner cfg hwf a' e' j ha' he' (by omega)
    rw [hrowc, hcolc]
    have hdiff : a' * cfg.subRows ≠ a * cfg.subRows ∨
        e' * cfg.subCols ≠ e * cfg.subCols := by
      by_contra hcon
      push_neg at hcon
      exact hne (by rw [hcon.1, hcon.2])
    rcases hdiff with h | h
    · simp [hcr, h]
    · simp [hcc, h]
  rw [flatMap_eq_single (boxCorners cfg) _ _ hmemc (boxCorners_nodup cfg hwf) hothers]
  have hcongr : (scanUnit ConflictType.box b
      (boxCell cfg (a * cfg.subRows) (e * cfg.subCols)) 0
      (cfg.subRows * cfg.subCols) []).filter
      (fun cf => cf.type == ConflictType.box &&
        (cf.row - cf.row % cfg.subRows == a * cfg.subRows) &&
        (cf.col - cf.col % cfg.subCols == e * cfg.subCols) && cf.value == v) =
      (scanUnit ConflictType.box b
        (boxCell cfg (a * cfg.subRows) (e * cfg.subCols)) 0
        (cfg.subRows * cfg.subCols) []).filter (fun cf => cf.value == v) := by
    apply List.filter_congr
    intro cf hcf
    obtain ⟨ht, j, _, hj2, hj3, _, _⟩ :=
      scanUnit_shape ConflictType.box b _ _ 0 [] cf hcf
    have hrowc : cf.row = (boxCell cfg (a * cfg.subRows) (e * cfg.subCols) j).1 :=
      congrArg Prod.fst hj3
    have hcolc : cf.col = (boxCell cfg (a * cfg.subRows) (e * cfg.subCols) j).2 :=
      congrArg Prod.snd hj3
    obtain ⟨hcr, hcc⟩ := boxCell_corner cfg hwf a e j ha he (by omega)
    rw [hrowc, hcolc]
    simp [ht, hcr, hcc]
  rw [hcongr]
  exact scanUnit_two ConflictType.box b
    (boxCell cfg (a * cfg.subRows) (e * cfg.subCols)) v hv
    (cfg.subRows * cfg.subCols) 0 [] t1 t2 (Nat.zero_le t1) h12 (by omega)
    hv1 hv2 (List.not_mem_nil v)
    (fun j _ hj2 hj3 hj4 => honly j (by omega) hj3 hj4)

/-! ## Concrete instances and projection lemmas -/

/-- A concrete random oracle (all draws 0). -/
def oracle0 : Nat → Nat := fun _ => 0

/-- The standard 9×9 shape, medium difficulty. -/
def cfg9 : SudokuConfig := ⟨9, 3, 3, Difficulty.medium⟩

/-- A 4×4 shape (2×2 sub-regions), easy difficulty. -/
def cfg4e : SudokuConfig := ⟨4, 2, 2, Difficulty.easy⟩

/-- A 4×4 shape (2×2 sub-regions), medium difficulty. -/
def cfg4m : SudokuConfig := ⟨4, 2, 2, Difficulty.medium⟩

/-- The spec's validator scenario: value 5 at `(0,0)` and `(0,3)` of an
otherwise empty 9×9 grid. -/
def g5 : Grid := fun r c =>
  if r = 0 ∧ c = 0 then 5 else if r = 0 ∧ c = 3 then 5 else 0

/-- Value 7 at `(0,0)` and `(0,1)`: the duplicate shares a row and a
sub-region, violating two rule families at once. -/
def gTwoFam : Grid := fun r c =>
  if r = 0 ∧ c = 0 then 7 else if r = 0 ∧ c = 1 then 7 else 0

/-- A concrete fully filled rule-consistent 9×9 grid. -/
def good9 : Grid := fun r c => (3 * (r % 3) + r / 3 + c) % 9 + 1

/-- `good9` with cell `(0,1)` overwritten by the value at `(0,0)`: fully
filled with a duplicated row value. -/
def dup9 : Grid := fun r c => if r = 0 ∧ c = 1 then 1 else good9 r c

theorem generateSudoku_small (cfg : SudokuConfig) (f : Nat → Nat) (k : Nat)
    (h : cfg.size ≤ 9) : generateSudoku cfg f k = generatePuzzle cfg f k := by
  unfold generateSudoku
  rw [if_neg (by omega)]

theorem generatePuzzle_solution (cfg : SudokuConfig) (f : Nat → Nat) (k : Nat) :
    (generatePuzzle cfg f k).solution = (solveSudoku cfg f zeroGrid k).2.1 := rfl

theorem generatePuzzle_puzzle (cfg : SudokuConfig) (f : Nat → Nat) (k : Nat) :
    (generatePuzzle cfg f k).puzzle =
      (carveLoop cfg (cellsToRemove cfg)
        (shuffleArray f (allPositions cfg) (solveSudoku cfg f zeroGrid k).2.2).1
        (solveSudoku cfg f zeroGrid k).2.1 allTrueMask 0).1 := rfl

theorem generatePuzzle_preset (cfg : SudokuConfig) (f : Nat → Nat) (k : Nat) :
    (generatePuzzle cfg f k).preset =
      (carveLoop cfg (cellsToRemove cfg)
        (shuffleArray f (allPositions cfg) (solveSudoku cfg f zeroGrid k).2.2).1
        (solveSudoku cfg f zeroGrid k).2.1 allTrueMask 0).2 := rfl

theorem generateQuickPuzzle_solution (cfg : SudokuConfig) (f : Nat → Nat) (k : Nat) :
    (generateQuickPuzzle cfg f k).solution = (solveSudoku cfg f zeroGrid k).2.1 := rfl

/-- The initial carving state satisfies the mask invariant. -/
theorem maskInv_init (sol : Grid) : MaskInv sol sol allTrueMask := by
  intro r c
  refine ⟨fun _ => rfl, fun h => ?_⟩
  simp [allTrueMask] at h

/-- The consequences of the mask invariant for a complete solution. -/
theorem maskInv_parts (cfg : SudokuConfig) (sol p : Grid) (m : Mask)
    (hinv : MaskInv sol p m) (hcomp : CompleteG cfg sol) :
    (∀ r c, (m r c = true → p r c = sol r c) ∧ (m r c = false → p r c = 0)) ∧
    (∀ r c, r < cfg.size → c < cfg.size → (m r c = false ↔ p r c = 0)) ∧
    isSolutionValid cfg p sol = true := by
  refine ⟨hinv, ?_, ?_⟩
  · intro r c hr hc
    constructor
    · exact (hinv r c).2
    · intro h0
      cases hm : m r c with
      | false => rfl
      | true =>
        exfalso
        have := (hinv r c).1 hm
        rw [h0] at this
        exact hcomp r c hr hc this.symm
  · rw [isSolutionValid_iff]
    intro r c hr hc hnz
    cases hm : m r c with
    | true => exact (hinv r c).1 hm
    | false => exact absurd ((hinv r c).2 hm) hnz

/-- The mask invariant holds of every `generatePuzzle` result. -/
theorem generatePuzzle_maskInv (cfg : SudokuConfig) (f : Nat → Nat) (k : Nat) :
    MaskInv (generatePuzzle cfg f k).solution (generatePuzzle cfg f k).puzzle
      (generatePuzzle cfg f k).preset := by
  rw [generatePuzzle_solution, generatePuzzle_puzzle, generatePuzzle_preset]
  apply carveLoop_mask
  · exact (shuffleArray_perm f (allPositions cfg) _).symm.nodup (allPositions_nodup cfg)
  · intro rc _
    rfl
  · exact maskInv_init _

/-- The mask invariant holds of every `generateQuickPuzzle` result. -/
theorem generateQuickPuzzle_maskInv (cfg : SudokuConfig) (f : Nat → Nat) (k : Nat) :
    MaskInv (generateQuickPuzzle cfg f k).solution (generateQuickPuzzle cfg f k).puzzle
      (generateQuickPuzzle cfg f k).preset := by
  have h : ∀ st : Grid × Mask × Nat,
      MaskInv (solveSudoku cfg f zeroGrid k).2.1 st.1 st.2.1 →
      MaskInv (solveSudoku cfg f zeroGrid k).2.1
        ((boxCorners cfg).foldl (quickBoxStep cfg f) st).1
        ((boxCorners cfg).foldl (quickBoxStep cfg f) st).2.1 := by
    intro st hst
    exact foldl_preserve
      (fun st : Grid × Mask × Nat =>
        MaskInv (solveSudoku cfg f zeroGrid k).2.1 st.1 st.2.1)
      (quickBoxStep cfg f) (boxCorners cfg)
      (fun st rc hstep => quickBoxStep_maskInv cfg f _ st rc hstep) st hst
  exact h ((solveSudoku cfg f zeroGrid k).2.1, allTrueMask, (solveSudoku cfg f zeroGrid k).2.2)
    (maskInv_init _)

/-! ## Claim theorems -/

/-- On the easy path (no uniqueness checking), `generatePuzzle` zeroes
exactly the quota, both in the puzzle and in the preset mask. -/
theorem easySmall_counts (cfg : SudokuConfig) (f : Nat → Nat) (k : Nat)
    (hwf : wellFormed cfg) (heasy : cfg.difficulty = Difficulty.easy) :
    numZeros cfg (generatePuzzle cfg f k).puzzle = cellsToRemove cfg ∧
    numPresetFalse cfg (generatePuzzle cfg f k).preset = cellsToRemove cfg := by
  have hsol := solveSudoku_zeroGrid cfg f k hwf
  have hnc : ¬(cfg.size ≤ 9 ∧ cfg.difficulty ≠ Difficulty.easy) := fun h => h.2 heasy
  have hperm := shuffleArray_perm f (allPositions cfg) (solveSudoku cfg f zeroGrid k).2.2
  have hexact := carveLoop_exact cfg hnc (cellsToRemove cfg)
    (shuffleArray f (allPositions cfg) (solveSudoku cfg f zeroGrid k).2.2).1
    (solveSudoku cfg f zeroGrid k).2.1 allTrueMask 0
    (hperm.symm.nodup (allPositions_nodup cfg))
    (fun rc hrc => by
      have hmem := hperm.mem_iff.1 hrc
      obtain ⟨h1, h2⟩ := (mem_allPositions cfg rc).1 hmem
      exact ⟨h1, h2, hsol.2.1 rc.1 rc.2 h1 h2, rfl⟩)
    (numZeros_eq_zero cfg _ hsol.2.1) (numPresetFalse_allTrue cfg) (Nat.zero_le _)
  have hlen : (shuffleArray f (allPositions cfg)
      (solveSudoku cfg f zeroGrid k).2.2).1.length = cfg.size * cfg.size := by
    rw [hperm.length_eq, allPositions_length]
  have hminq : min (cellsToRemove cfg) (0 + cfg.size * cfg.size) = cellsToRemove cfg := by
    have := cellsToRemove_le cfg
    omega
  constructor
  · rw [generatePuzzle_puzzle, hexact.1, hlen, hminq]
  · rw [generatePuzzle_preset, hexact.2, hlen, hminq]

/-- C1: for every shape with `edge ≤ 9` and medium or hard difficulty, and
for every sequence of random choices, the puzzle returned by `generate`
has exactly one completion consistent with the placement rules — unique
solvability is an invariant of every iteration of the carving loop: a cell
is kept zeroed only if the solution-counting search reports exactly 1, and
otherwise its original value and preset flag are restored. -/
theorem claim_C1 (cfg : SudokuConfig) (f : Nat → Nat) (k : Nat)
    (hwf : wellFormed cfg) (hsize : cfg.size ≤ 9)
    (hdiff : cfg.difficulty = Difficulty.medium ∨ cfg.difficulty = Difficulty.hard) :
    ExactlyOneCompletion cfg (generateSudoku cfg f k).puzzle := by
  rw [generateSudoku_small cfg f k hsize, generatePuzzle_puzzle]
  have hsol := solveSudoku_zeroGrid cfg f k hwf
  have hcond : cfg.size ≤ 9 ∧ cfg.difficulty ≠ Difficulty.easy := by
    refine ⟨hsize, ?_⟩
    rcases hdiff with h | h <;> rw [h] <;> intro hcon <;> cases hcon
  exact (carveLoop_unique cfg hwf hcond (cellsToRemove cfg) _ _ allTrueMask 0
    hsol.2.2.1 hsol.2.2.2
    (exactlyOne_of_complete cfg _ hsol.2.1 hsol.2.2.1 hsol.2.2.2)).2.2

/-- C1 witness: a concrete 4×4 medium-difficulty instance. -/
theorem claim_C1_witness :
    ExactlyOneCompletion cfg4m (generateSudoku cfg4m oracle0 0).puzzle :=
  claim_C1 cfg4m oracle0 0 (by decide) (by decide) (Or.inl rfl)

/-- C3: for every shape satisfying `subRows * subCols = edge` with positive
dimensions, the backtracking fill started on an all-zero grid terminates
(it is a total function in this embedding, with recursion depth bounded by
the number of empty cells) and returns `true` with every cell filled with
a value in `1..edge`, for every sequence of random candidate orders;
top-level failure is unreachable. -/
theorem claim_C3 (cfg : SudokuConfig) (f : Nat → Nat) (k : Nat)
    (hwf : wellFormed cfg) :
    (solveSudoku cfg f zeroGrid k).1 = true ∧
    (∀ r c, r < cfg.size → c < cfg.size →
      1 ≤ (solveSudoku cfg f zeroGrid k).2.1 r c ∧
      (solveSudoku cfg f zeroGrid k).2.1 r c ≤ cfg.size) := by
  have h := solveSudoku_zeroGrid cfg f k hwf
  refine ⟨h.1, fun r c hr hc => ⟨?_, h.2.2.2 r c hr hc⟩⟩
  have := h.2.1 r c hr hc
  omega

/-- C3 witness: a concrete 4×4 instance. -/
theorem claim_C3_witness :
    (solveSudoku cfg4e oracle0 zeroGrid 0).1 = true ∧
    (∀ r c, r < cfg4e.size → c < cfg4e.size →
      1 ≤ (solveSudoku cfg4e oracle0 zeroGrid 0).2.1 r c ∧
      (solveSudoku cfg4e oracle0 zeroGrid 0).2.1 r c ≤ cfg4e.size) :=
  claim_C3 cfg4e oracle0 0 (by decide)

/-- C6: on a 9×9 grid, for every difficulty and every sequence of random
choices, the number of zeroed cells of the returned puzzle is at most the
removal quota `floor(81 × ratio)` — 32 for easy, 44 for medium, 56 for
hard; uniqueness-preserving restores can only reduce that count. -/
theorem claim_C6 (cfg : SudokuConfig) (f : Nat → Nat) (k : Nat)
    (hwf : wellFormed cfg) (hsize : cfg.size = 9) :
    numZeros cfg (generateSudoku cfg f k).puzzle ≤ cellsToRemove cfg ∧
    (cfg.difficulty = Difficulty.easy → cellsToRemove cfg = 32) ∧
    (cfg.difficulty = Difficulty.medium → cellsToRemove cfg = 44) ∧
    (cfg.difficulty = Difficulty.hard → cellsToRemove cfg = 56) := by
  have hsol := solveSudoku_zeroGrid cfg f k hwf
  refine ⟨?_, ?_, ?_, ?_⟩
  · rw [generateSudoku_small cfg f k (by omega), generatePuzzle_puzzle]
    apply carveLoop_zeros_le
    · exact Nat.le_of_eq (numZeros_eq_zero cfg _ hsol.2.1)
    · exact Nat.zero_le _
  · intro h
    unfold cellsToRemove
    rw [h, hsize]
  · intro h
    unfold cellsToRemove
    rw [h, hsize]
  · intro h
    unfold cellsToRemove
    rw [h, hsize]

/-- C6 witness: the 9×9 medium shape. -/
theorem claim_C6_witness :
    numZeros cfg9 (generateSudoku cfg9 oracle0 0).puzzle ≤ cellsToRemove cfg9 ∧
    (cfg9.difficulty = Difficulty.easy → cellsToRemove cfg9 = 32) ∧
    (cfg9.difficulty = Difficulty.medium → cellsToRemove cfg9 = 44) ∧
    (cfg9.difficulty = Difficulty.hard → cellsToRemove cfg9 = 56) :=
  claim_C6 cfg9 oracle0 0 (by decide) (by decide)

/-- C10: for every shape with easy difficulty and `edge ≤ 9`, `generate`
removes exactly `floor(edge² × 0.40)` cells — the quota is always fully
met, because the easy path performs no uniqueness check and never restores
a tentatively zeroed cell. -/
theorem claim_C10 (cfg : SudokuConfig) (f : Nat → Nat) (k : Nat)
    (hwf : wellFormed cfg) (hsize : cfg.size ≤ 9)
    (heasy : cfg.difficulty = Difficulty.easy) :
    numZeros cfg (generateSudoku cfg f k).puzzle =
      cfg.size * cfg.size * 40 / 100 ∧
    numPresetFalse cfg (generateSudoku cfg f k).preset =
      cfg.size * cfg.size * 40 / 100 := by
  have hquota : cellsToRemove cfg = cfg.size * cfg.size * 40 / 100 := by
    unfold cellsToRemove
    rw [heasy]
  have h := easySmall_counts cfg f k hwf heasy
  rw [generateSudoku_small cfg f k hsize, h.1, h.2, hquota]
  exact ⟨rfl, rfl⟩

/-- C10 witness: the 4×4 easy shape removes exactly `floor(16 × 0.40) = 6`
cells. -/
theorem claim_C10_witness :
    numZeros cfg4e (generateSudoku cfg4e oracle0 0).puzzle =
      cfg4e.size * cfg4e.size * 40 / 100 ∧
    numPresetFalse cfg4e (generateSudoku cfg4e oracle0 0).preset =
      cfg4e.size * cfg4e.size * 40 / 100 :=
  claim_C10 cfg4e oracle0 0 (by decide) (by decide) rfl

/-- C5 counterexample: on the 4×4 easy shape with a concrete oracle,
`generateSudoku` zeroes 6 cells in total and 3 cells in the sub-region
with corner `(0,0)`, whereas the claimed fixed-ratio per-sub-region policy
(`keep = ceil(4 × 0.70) = 3` per region) would zero exactly one cell per
region, 4 in total. -/
theorem claim_C5_counterexample :
    numZeros cfg4e (generateSudoku cfg4e oracle0 0).puzzle = 6 ∧
    keepPerBox cfg4e = 3 ∧
    cfg4e.size * cfg4e.size -
      (cfg4e.subRows * cfg4e.subCols) * keepPerBox cfg4e = 4 ∧
    (boxPositions cfg4e 0 0).countP
      (fun rc => (generateSudoku cfg4e oracle0 0).puzzle rc.1 rc.2 == 0) = 3 ∧
    (6 : Nat) ≠ 4 := by
  refine ⟨by decide, by decide, by decide, by decide, by decide⟩

/-- C5 amended: for every shape with easy difficulty and `edge ≤ 9`,
`generate` routes through `generatePuzzle` (the quota policy with the
uniqueness check skipped), zeroing exactly `floor(edge² × 0.40)` cells
drawn from a random permutation of all positions; the fixed-ratio
per-sub-region policy is used only when `edge > 9`. -/
theorem claim_C5_amended (cfg : SudokuConfig) (f : Nat → Nat) (k : Nat)
    (hwf : wellFormed cfg) (hsize : cfg.size ≤ 9)
    (heasy : cfg.difficulty = Difficulty.easy) :
    generateSudoku cfg f k = generatePuzzle cfg f k ∧
    numZeros cfg (generateSudoku cfg f k).puzzle = cellsToRemove cfg ∧
    cellsToRemove cfg = cfg.size * cfg.size * 40 / 100 := by
  have h := easySmall_counts cfg f k hwf heasy
  refine ⟨generateSudoku_small cfg f k hsize, ?_, ?_⟩
  · rw [generateSudoku_small cfg f k hsize, h.1]
  · unfold cellsToRemove
    rw [heasy]

/-- C5 amended witness: the 4×4 easy shape. -/
theorem claim_C5_amended_witness :
    generateSudoku cfg4e oracle0 0 = generatePuzzle cfg4e oracle0 0 ∧
    numZeros cfg4e (generateSudoku cfg4e oracle0 0).puzzle = cellsToRemove cfg4e ∧
    cellsToRemove cfg4e = cfg4e.size * cfg4e.size * 40 / 100 :=
  claim_C5_amended cfg4e oracle0 0 (by decide) (by decide) rfl

/-- C8: the solution-counting search of `hasUniqueSolution` operates on an
independent copy of the caller's grid and restores that buffer cell for
cell (place / recurse / un-place), so every cell of the caller's
in-progress puzzle has the same value after the call as before it.  The
pair below is exactly the call made inside `hasUniqueSolution`. -/
theorem claim_C8 (cfg : SudokuConfig) (b : Grid) (r c : Nat) :
    (countSolutions cfg (numZeros cfg (copyGrid b) + 1) (copyGrid b) 0).2 r c
      = b r c ∧
    copyGrid b r c = b r c := by
  constructor
  · rw [countSolutions_snd]
    rfl
  · rfl

/-- Value 5 at `(0,0)` and `(3,0)` of an otherwise empty 9×9 grid: a
column-family duplicate pair. -/
def g5col : Grid := fun r c =>
  if r = 0 ∧ c = 0 then 5 else if r = 3 ∧ c = 0 then 5 else 0

/-- C2: for a pair of duplicate nonzero values that are the only
occurrences of that value in their row (resp. column, sub-region),
`validate` reports exactly one conflict entry for that value and rule
family, located at the later-scanned cell of the pair, never at the
earlier occurrence; a cell violating two rule families gets one entry per
family; and concretely, a 9×9 grid whose only duplicates are the value 5
at `(0,0)` and `(0,3)` yields exactly one conflict, at row 0 column 3 with
kind `row`, and none at `(0,0)`. -/
theorem claim_C2 :
    (∀ (cfg : SudokuConfig) (b : Grid) (r v c1 c2 : Nat),
      r < cfg.size → c2 < cfg.size → c1 < c2 → v ≠ 0 →
      b r c1 = v → b r c2 = v →
      (∀ x, x < cfg.size → x ≠ c1 → x ≠ c2 → b r x ≠ v) →
      (validateConflicts cfg b).filter
        (fun cf => cf.type == ConflictType.row && cf.row == r && cf.value == v) =
        [{ row := r, col := c2, value := v, type := ConflictType.row }]) ∧
    (∀ (cfg : SudokuConfig) (b : Grid) (c v r1 r2 : Nat),
      c < cfg.size → r2 < cfg.size → r1 < r2 → v ≠ 0 →
      b r1 c = v → b r2 c = v →
      (∀ x, x < cfg.size → x ≠ r1 → x ≠ r2 → b x c ≠ v) →
      (validateConflicts cfg b).filter
        (fun cf => cf.type == ConflictType.column && cf.col == c && cf.value == v) =
        [{ row := r2, col := c, value := v, type := ConflictType.column }]) ∧
    (∀ (cfg : SudokuConfig) (b : Grid), wellFormed cfg →
      ∀ (v a e t1 t2 : Nat), a < cfg.subCols → e < cfg.subRows →
      t1 < t2 → t2 < cfg.subRows * cfg.subCols → v ≠ 0 →
      b (boxCell cfg (a * cfg.subRows) (e * cfg.subCols) t1).1
        (boxCell cfg (a * cfg.subRows) (e * cfg.subCols) t1).2 = v →
      b (boxCell cfg (a * cfg.subRows) (e * cfg.subCols) t2).1
        (boxCell cfg (a * cfg.subRows) (e * cfg.subCols) t2).2 = v →
      (∀ t, t < cfg.subRows * cfg.subCols → t ≠ t1 → t ≠ t2 →
        b (boxCell cfg (a * cfg.subRows) (e * cfg.subCols) t).1
          (boxCell cfg (a * cfg.subRows) (e * cfg.subCols) t).2 ≠ v) →
      (validateConflicts cfg b).filter
        (fun cf => cf.type == ConflictType.box &&
          (cf.row - cf.row % cfg.subRows == a * cfg.subRows) &&
          (cf.col - cf.col % cfg.subCols == e * cfg.subCols) && cf.value == v) =
        [{ row := (boxCell cfg (a * cfg.subRows) (e * cfg.subCols) t2).1,
           col := (boxCell cfg (a * cfg.subRows) (e * cfg.subCols) t2).2,
           value := v, type := ConflictType.box }]) ∧
    validateConflicts cfg9 g5 =
      [{ row := 0, col := 3, value := 5, type := ConflictType.row }] ∧
    validateConflicts cfg9 gTwoFam =
      [{ row := 0, col := 1, value := 7, type := ConflictType.row },
       { row := 0, col := 1, value := 7, type := ConflictType.box }] := by
  refine ⟨?_, ?_, ?_, by decide, by decide⟩
  · intro cfg b r v c1 c2 hr hc2 h12 hv hv1 hv2 honly
    exact validate_row_pair cfg b r v c1 c2 hr hc2 h12 hv hv1 hv2 honly
  · intro cfg b c v r1 r2 hc hr2 h12 hv hv1 hv2 honly
    exact validate_col_pair cfg b c v r1 r2 hc hr2 h12 hv hv1 hv2 honly
  · intro cfg b hwf v a e t1 t2 ha he h12 ht2 hv hv1 hv2 honly
    exact validate_box_pair cfg b hwf v a e t1 t2 ha he h12 ht2 hv hv1 hv2 honly

/-- C2 witness: the spec scenario (row family at `g5`), a column pair, and
a sub-region pair. -/
theorem claim_C2_witness :
    ((validateConflicts cfg9 g5).filter
      (fun cf => cf.type == ConflictType.row && cf.row == 0 && cf.value == 5) =
      [{ row := 0, col := 3, value := 5, type := ConflictType.row }]) ∧
    ((validateConflicts cfg9 g5col).filter
      (fun cf => cf.type == ConflictType.column && cf.col == 0 && cf.value == 5) =
      [{ row := 3, col := 0, value := 5, type := ConflictType.column }]) ∧
    ((validateConflicts cfg9 gTwoFam).filter
      (fun cf => cf.type == ConflictType.box &&
        (cf.row - cf.row % cfg9.subRows == 0 * cfg9.subRows) &&
        (cf.col - cf.col % cfg9.subCols == 0 * cfg9.subCols) && cf.value == 7) =
      [{ row := (boxCell cfg9 (0 * cfg9.subRows) (0 * cfg9.subCols) 1).1,
         col := (boxCell cfg9 (0 * cfg9.subRows) (0 * cfg9.subCols) 1).2,
         value := 7, type := ConflictType.box }]) :=
  ⟨claim_C2.1 cfg9 g5 0 5 0 3 (by decide) (by decide) (by decide) (by decide)
      (by decide) (by decide) (by decide),
   claim_C2.2.1 cfg9 g5col 0 5 0 3 (by decide) (by decide) (by decide) (by decide)
      (by decide) (by decide) (by decide),
   claim_C2.2.2.1 cfg9 gTwoFam (by decide) 7 0 0 0 1 (by decide) (by decide)
      (by decide) (by decide) (by decide) (by decide) (by decide) (by decide)⟩

/-- C4: for every well-formed shape and every result of `generate` (either
carving policy), a preset cell holds the solution value, a non-preset cell
is zero, within range the preset flag is false exactly on the zero cells,
and the puzzle is consistent with the solution
(`isSolutionValid` / the spec's `isConsistentWithSolution`). -/
theorem claim_C4 (cfg : SudokuConfig) (f : Nat → Nat) (k : Nat)
    (hwf : wellFormed cfg) :
    (∀ r c, ((generateSudoku cfg f k).preset r c = true →
        (generateSudoku cfg f k).puzzle r c = (generateSudoku cfg f k).solution r c) ∧
      ((generateSudoku cfg f k).preset r c = false →
        (generateSudoku cfg f k).puzzle r c = 0)) ∧
    (∀ r c, r < cfg.size → c < cfg.size →
      ((generateSudoku cfg f k).preset r c = false ↔
        (generateSudoku cfg f k).puzzle r c = 0)) ∧
    isSolutionValid cfg (generateSudoku cfg f k).puzzle
      (generateSudoku cfg f k).solution = true := by
  have hsol := solveSudoku_zeroGrid cfg f k hwf
  unfold generateSudoku
  by_cases hbig : cfg.size > 9
  · rw [if_pos hbig]
    exact maskInv_parts cfg _ _ _ (generateQuickPuzzle_maskInv cfg f k)
      (by rw [generateQuickPuzzle_solution]; exact hsol.2.1)
  · rw [if_neg hbig]
    exact maskInv_parts cfg _ _ _ (generatePuzzle_maskInv cfg f k)
      (by rw [generatePuzzle_solution]; exact hsol.2.1)

/-- C4 witness: the 4×4 easy shape. -/
theorem claim_C4_witness :
    (∀ r c, ((generateSudoku cfg4e oracle0 0).preset r c = true →
        (generateSudoku cfg4e oracle0 0).puzzle r c =
          (generateSudoku cfg4e oracle0 0).solution r c) ∧
      ((generateSudoku cfg4e oracle0 0).preset r c = false →
        (generateSudoku cfg4e oracle0 0).puzzle r c = 0)) ∧
    (∀ r c, r < cfg4e.size → c < cfg4e.size →
      ((generateSudoku cfg4e oracle0 0).preset r c = false ↔
        (generateSudoku cfg4e oracle0 0).puzzle r c = 0)) ∧
    isSolutionValid cfg4e (generateSudoku cfg4e oracle0 0).puzzle
      (generateSudoku cfg4e oracle0 0).solution = true :=
  claim_C4 cfg4e oracle0 0 (by decide)

/-- C7: `isComplete` is true exactly when no cell is zero and `validate`
reports valid; an all-zero grid (edge ≥ 1) is never complete; a fully
filled rule-consistent 9×9 grid is complete; a fully filled 9×9 grid with
a duplicated row value is not. -/
theorem claim_C7 :
    (∀ (cfg : SudokuConfig) (b : Grid), isComplete cfg b = true ↔
      ((∀ r c, r < cfg.size → c < cfg.size → b r c ≠ 0) ∧
       (validate cfg b).isValid = true)) ∧
    (∀ cfg : SudokuConfig, 1 ≤ cfg.size → isComplete cfg zeroGrid = false) ∧
    isComplete cfg9 good9 = true ∧ isComplete cfg9 dup9 = false := by
  refine ⟨?_, ?_, by decide, by decide⟩
  · intro cfg b
    unfold isComplete
    rw [Bool.and_eq_true]
    constructor
    · rintro ⟨h1, h2⟩
      refine ⟨?_, h2⟩
      intro r c hr hc
      have hrow := (List.all_eq_true.1 h1) r (List.mem_range.2 hr)
      have hcell := (List.all_eq_true.1 hrow) c (List.mem_range.2 hc)
      simpa using hcell
    · rintro ⟨h1, h2⟩
      refine ⟨?_, h2⟩
      apply List.all_eq_true.2
      intro r hr
      apply List.all_eq_true.2
      intro c hc
      simpa using h1 r c (List.mem_range.1 hr) (List.mem_range.1 hc)
  · intro cfg h
    unfold isComplete
    have hX : ((List.range cfg.size).all fun row =>
        (List.range cfg.size).all fun col => zeroGrid row col != 0) = false := by
      apply Bool.eq_false_iff.2
      intro hall
      have hrow := (List.all_eq_true.1 hall) 0 (List.mem_range.2 (by omega))
      have hcell := (List.all_eq_true.1 hrow) 0 (List.mem_range.2 (by omega))
      simp [zeroGrid] at hcell
    rw [hX, Bool.false_and]

/-- C7 witness: the general parts instantiated at the 9×9 shape. -/
theorem claim_C7_witness :
    (isComplete cfg9 good9 = true ↔
      ((∀ r c, r < cfg9.size → c < cfg9.size → good9 r c ≠ 0) ∧
       (validate cfg9 good9).isValid = true)) ∧
    isComplete cfg9 zeroGrid = false :=
  ⟨claim_C7.1 cfg9 good9, claim_C7.2.1 cfg9 (by decide)⟩

/-- C9: the `ValidationResult` returned by `validate` has `valid == true`
exactly when the three scans emit no conflict entry, equivalently exactly
when the `conflicts` field is absent. -/
theorem claim_C9 (cfg : SudokuConfig) (b : Grid) :
    ((validate cfg b).isValid = true ↔ validateConflicts cfg b = []) ∧
    ((validate cfg b).isValid = true ↔ (validate cfg b).conflicts = none) := by
  have h1 : (validate cfg b).isValid = ((validateConflicts cfg b).length == 0) := rfl
  have h2 : (validate cfg b).conflicts =
      (if (validateConflicts cfg b).length > 0 then some (validateConflicts cfg b)
       else none) := rfl
  cases h : validateConflicts cfg b with
  | nil =>
    rw [h] at h1 h2
    simp [h1, h2, h]
  | cons x t =>
    rw [h] at h1 h2
    simp [h1, h2, h]

end SudoCube
